import Mathlib

/-!
# Formal model of the DP-ScoutIQ conversation-turn pipeline

A shallow embedding, in Lean 4, of the chat-turn core of the
DP-ScoutIQ backend (`chatbot_module/chatbot.py`, `chatbot_module/tools.py`,
`chatbot_module/tools_extensions.py` and the `/chat` endpoint of
`api_module/main.py`).  Python strings are modelled as `List Char`
(ASCII-oriented: case folding and whitespace classes follow the ASCII
subset, which covers every literal the modelled code manipulates).
Python regular expressions are translated into explicit character-list
matchers that mirror the backtracking behaviour of the patterns used by
the source.  External calls (the chat LLM, the two parser chains and the
translator) are modelled as oracle inputs of type `Except`, an `.error`
standing for a raised exception.
-/

namespace ScoutIQ

/-- Python strings, modelled as lists of characters. -/
abbrev Str := List Char

/-- `List Char` of a Lean string literal (used for concrete inputs). -/
def str (s : String) : Str := s.data

/-- Python's `str.isspace` / regex `\s` class, ASCII subset
(space, tab, newline, carriage return, vertical tab, form feed). -/
def pyIsSpace (c : Char) : Bool :=
  c = ' ' || c = '\t' || c = '\n' || c = '\r' || c = '\x0b' || c = '\x0c'

/-- ASCII lower-casing of one character (regex `re.IGNORECASE` model). -/
def charLower (c : Char) : Char :=
  if 'A' ≤ c && c ≤ 'Z' then Char.ofNat (c.toNat + 32) else c

/-- ASCII upper-casing of one character (for Python `str.title`). -/
def charUpper (c : Char) : Char :=
  if 'a' ≤ c && c ≤ 'z' then Char.ofNat (c.toNat - 32) else c

/-- Python `str.lower`, ASCII subset. -/
def lowerStr (s : Str) : Str := s.map charLower

/-- Python `str.lstrip()` (default whitespace). -/
def ltrimWs (s : Str) : Str := s.dropWhile pyIsSpace

/-- Python `str.rstrip()` (default whitespace). -/
def rtrimWs : Str → Str
  | [] => []
  | c :: cs =>
    match rtrimWs cs with
    | [] => if pyIsSpace c then [] else [c]
    | r => c :: r

/-- Python `str.strip()` (default whitespace). -/
def pyStrip (s : Str) : Str := rtrimWs (ltrimWs s)

/-- Python `str.splitlines()` restricted to `'\n'` separators (the modelled
code only ever joins lines with `'\n'`): each newline terminates a line and
a final segment is kept only when nonempty. -/
def splitLines : Str → List Str
  | [] => []
  | c :: cs =>
    if c = '\n' then [] :: splitLines cs
    else
      match splitLines cs with
      | [] => [[c]]
      | l :: ls => (c :: l) :: ls

/-- Python `"\n".join(lines)`. -/
def joinNL : List Str → Str
  | [] => []
  | [l] => l
  | l :: ls => l ++ '\n' :: joinNL ls

/-- Case-insensitive literal matching: `stripPrefixCI pat s` returns the rest
of `s` after a prefix whose ASCII lower-casing is `pat` (the way a literal
inside an `re.IGNORECASE` pattern consumes input). -/
def stripPrefixCI : Str → Str → Option Str
  | [], s => some s
  | _ :: _, [] => none
  | p :: ps, c :: cs => if charLower c = p then stripPrefixCI ps cs else none

/-- Case-sensitive substring test, for Python's `"ai" in role`. -/
def containsSub (pat : Str) (s : Str) : Bool :=
  (List.range (s.length + 1)).any fun i => pat.isPrefixOf (s.drop i)

/-- Truthiness of an optional string field of a parsed JSON object
(Python `if p.get("name")`: `None` and `""` are falsy). -/
def nameTruthy : Option Str → Bool
  | none => false
  | some s => !s.isEmpty

/-- Python `p.get("name") or ""`. -/
def nameOrEmpty : Option Str → Str
  | none => []
  | some s => s

/-! ## Dedup filter — `tools.filter_players_by_seen`

The source works on the parser output dictionaries
`meta = {"players": [...]}` and `stats = {"players": [...]}`; the model
keeps the player lists.  Python `set`s are modelled as lists, faithful up
to membership (which is all the source ever uses of them). -/

/-- One player record as produced by `parse_player_meta_new` /
`fallback_parse_profile_block_new` (field order follows the source dict). -/
structure PlayerOut where
  name : Option Str
  gender : Option Str := none
  height : Option Int := none
  weight : Option Int := none
  age : Option Int := none
  nationality : Option Str := none
  team : Option Str := none
  match_count : Option Int := none
  roles : List Str := []
  potential : Option Int := none
deriving Repr, DecidableEq

/-- One stats entry `{"metric": ..., "value": ...}` after normalization. -/
structure StatEntry where
  metric : Str
  value : Int
deriving Repr, DecidableEq

/-- One player of the normalized stats payload (its name is never empty:
`parse_statistical_highlights` substitutes `"Player"`). -/
structure StatsPlayer where
  name : Str
  stats : List StatEntry
deriving Repr, DecidableEq

/-- `tools.filter_players_by_seen`: keep only players whose normalized
(`str.strip()`-ed) name is not in the seen set.  Returns
`(filtered meta players, filtered stats players, new names)`.  The Python
sets `current_names` / `new_names` are modelled as lists; `new_names` may
hold duplicates, which no caller can observe (only emptiness and
membership are used). -/
def filter_players_by_seen (meta : List PlayerOut) (stats : List StatsPlayer)
    (seen : List Str) : List PlayerOut × List StatsPlayer × List Str :=
  let seenNorm := seen.map pyStrip
  let currentNames :=
    (meta.filter (fun p => nameTruthy p.name)).map
      (fun p => pyStrip (nameOrEmpty p.name))
    ++ (stats.filter (fun p => !p.name.isEmpty)).map (fun p => pyStrip p.name)
  let newNames := currentNames.filter fun n => !n.isEmpty && !(seenNorm.contains n)
  (meta.filter (fun p => newNames.contains (pyStrip (nameOrEmpty p.name))),
   stats.filter (fun p => newNames.contains (pyStrip p.name)),
   newNames)

/-- The new-name component of the dedup filter. -/
def newNamesOf (meta : List PlayerOut) (stats : List StatsPlayer)
    (seen : List Str) : List Str :=
  (filter_players_by_seen meta stats seen).2.2

/-! ## Numeric coercions

`int(...)` on a string accepts optional surrounding whitespace, an optional
sign and a nonempty digit run.  `float(...)` is modelled on integral
literals only (the modelled records never carry fractional values and no
claim depends on them). -/

/-- Decimal value of a digit run. -/
def digitsToNat (ds : Str) : Nat := ds.foldl (fun a c => a * 10 + (c.toNat - 48)) 0

/-- Python `int(s)` for a string: `none` models a raised `ValueError`. -/
def pyInt (s : Str) : Option Int :=
  let t := pyStrip s
  match t with
  | '-' :: u => if !u.isEmpty && u.all Char.isDigit then some (-(digitsToNat u : Int)) else none
  | '+' :: u => if !u.isEmpty && u.all Char.isDigit then some ((digitsToNat u : Int)) else none
  | u => if !u.isEmpty && u.all Char.isDigit then some ((digitsToNat u : Int)) else none

/-- Python `float(s)`, restricted to the integral literals the modelled
data ever holds. -/
def pyFloatAsInt (s : Str) : Option Int := pyInt s

/-! ## Block parser — `tools_extensions.PROFILE_BLOCK_RE` and
`fallback_parse_profile_block_new`

```
PROFILE_BLOCK_RE =
  \[\[\s*PLAYER_PROFILE\s*:\s*(?P<name>[^\]]+)\s*\]\]
  (?P<body>[\s\S]*?)
  (?:\[\[\/PLAYER_PROFILE\]\] | \[\[\s*\/?PLAYER_STATS\s*:\s*[^\]]+\]\])
```
(IGNORECASE, VERBOSE).  The open tag's name group `[^\]]+\s*\]\]` matches
exactly when the run of non-`]` characters after the colon is nonempty and
is followed by `]]`; backtracking leaves the run's leading whitespace to
the preceding `\s*` (and, when the run is all whitespace, the group keeps
only its last character).  The close alternation accepts the exact
`[[/PLAYER_PROFILE]]` or a `PLAYER_STATS` tag that carries a `:`-separated
nonempty name part; the lazy body stops at the earliest close. -/

/-- The open tag of `PROFILE_BLOCK_RE` anchored at the start of `s`:
`some (name group, rest after the closing "]]")`. -/
def openTagPB (s : Str) : Option (Str × Str) :=
  match s with
  | '[' :: '[' :: r =>
    match stripPrefixCI (str "player_profile") (r.dropWhile pyIsSpace) with
    | none => none
    | some r1 =>
      match r1.dropWhile pyIsSpace with
      | ':' :: r2 =>
        let run := r2.takeWhile (· ≠ ']')
        match r2.dropWhile (· ≠ ']') with
        | ']' :: ']' :: rest =>
          if run.isEmpty then none
          else
            let core := run.dropWhile pyIsSpace
            some (if core.isEmpty then run.drop (run.length - 1) else core, rest)
        | _ => none
      | _ => none
  | _ => none

/-- The close alternation of `PROFILE_BLOCK_RE` anchored at the start of
`s`: `some (rest after the close)`. -/
def closeTagPB (s : Str) : Option Str :=
  match s with
  | '[' :: '[' :: r =>
    match stripPrefixCI (str "/player_profile]]") r with
    | some rest => some rest
    | none =>
      let r1 := r.dropWhile pyIsSpace
      let r2 := match r1 with
        | '/' :: t => t
        | _ => r1
      match stripPrefixCI (str "player_stats") r2 with
      | none => none
      | some r3 =>
        match r3.dropWhile pyIsSpace with
        | ':' :: r4 =>
          match r4.dropWhile (· ≠ ']') with
          | ']' :: ']' :: rest =>
            if (r4.takeWhile (· ≠ ']')).isEmpty then none else some rest
          | _ => none
        | _ => none
  | _ => none

/-- The lazy body `[\s\S]*?` followed by the close alternation:
`some (body, rest after the close)` for the earliest close. -/
def findClose : Str → Option (Str × Str)
  | [] => none
  | c :: cs =>
    match closeTagPB (c :: cs) with
    | some rest => some ([], rest)
    | none =>
      match findClose cs with
      | some (b, rest) => some (c :: b, rest)
      | none => none

/-- `PROFILE_BLOCK_RE.search`: the leftmost start position whose open tag
is followed by some close; returns `(name group, body)`. -/
def searchPB : Str → Option (Str × Str)
  | [] => none
  | s@(_ :: cs) =>
    match openTagPB s with
    | some (grp, afterOpen) =>
      match findClose afterOpen with
      | some (body, _) => some (grp, body)
      | none => searchPB cs
    | none => searchPB cs

/-- Python `s.split(":", 1)[1]`: `none` models the `IndexError` raised when
`s` has no colon. -/
def afterColon (s : Str) : Option Str :=
  match s.dropWhile (· ≠ ':') with
  | ':' :: r => some r
  | _ => none

/-- Python `s.split(",")`. -/
def splitCommas : Str → List Str
  | [] => [[]]
  | c :: cs =>
    if c = ',' then [] :: splitCommas cs
    else
      match splitCommas cs with
      | [] => [[c]]
      | l :: ls => (c :: l) :: ls

/-- `[r.strip() for r in role_raw.split(",") if r.strip()]`. -/
def rolesOfRaw (role_raw : Str) : List Str :=
  (splitCommas role_raw).filterMap fun r =>
    let t := pyStrip r
    if t.isEmpty then none else some t

/-- Python `lnl.startswith(lit)`. -/
def startsWithLit (lit : String) (l : Str) : Bool := (str lit).isPrefixOf l

/-- The mutable locals of `fallback_parse_profile_block_new`'s body scan. -/
structure FBState where
  gender : Option Str := none
  height : Option Int := none
  weight : Option Int := none
  age : Option Int := none
  nationality : Option Str := none
  team : Option Str := none
  roles : List Str := []
  potential : Option Int := none
  match_count : Option Int := none
deriving Repr, DecidableEq

/-- A numeric assignment inside `try: ... except: pass`: keep the previous
value when the colon is missing (`IndexError`) or the literal fails to
parse (`ValueError`). -/
def tryNum (old : Option Int) (v : Option Str) : Option Int :=
  match v with
  | none => old
  | some t =>
    match pyInt t with
    | some n => some n
    | none => old

/-- One body line of the fallback profile scan.  The `nationality`, `team`
and `roles` branches index `split(":", 1)[1]` outside any `try`, so a
matching line without a colon raises (`.error`). -/
def fbLine (st : FBState) (line : Str) : Except Unit FBState :=
  let ln := pyStrip line
  let lnl := lowerStr ln
  if startsWithLit "- gender:" lnl then
    match afterColon ln with
    | some v => .ok { st with gender := some (pyStrip v) }
    | none => .error ()
  else if startsWithLit "- height" lnl then
    .ok { st with height := tryNum st.height (afterColon ln) }
  else if startsWithLit "- weight" lnl then
    .ok { st with weight := tryNum st.weight (afterColon ln) }
  else if startsWithLit "- age" lnl then
    .ok { st with age := tryNum st.age (afterColon ln) }
  else if startsWithLit "- nationality" lnl then
    match afterColon ln with
    | some v => .ok { st with nationality := some (pyStrip v) }
    | none => .error ()
  else if startsWithLit "- team" lnl then
    match afterColon ln with
    | some v => .ok { st with team := some (pyStrip v) }
    | none => .error ()
  else if startsWithLit "- roles" lnl then
    match afterColon ln with
    | some v => .ok { st with roles := rolesOfRaw v }
    | none => .error ()
  else if startsWithLit "- potential" lnl then
    .ok { st with potential := tryNum st.potential (afterColon ln) }
  else if startsWithLit "- match_count" lnl then
    .ok { st with match_count := tryNum st.match_count (afterColon ln) }
  else .ok st

/-- The body scan, line by line. -/
def fallbackFold : FBState → List Str → Except Unit FBState
  | st, [] => .ok st
  | st, l :: ls =>
    match fbLine st l with
    | .ok st2 => fallbackFold st2 ls
    | .error e => .error e

/-- `tools_extensions.fallback_parse_profile_block_new`: the first
`PROFILE_BLOCK_RE` match (or no players), its name group stripped, its
body scanned for `- field: value` lines. -/
def fallback_parse_profile_block_new (raw_text : Str) : Except Unit (List PlayerOut) :=
  match searchPB raw_text with
  | none => .ok []
  | some (grp, body) =>
    match fallbackFold {} (splitLines body) with
    | .error e => .error e
    | .ok st =>
      .ok [{ name := some (pyStrip grp), gender := st.gender, height := st.height,
             weight := st.weight, age := st.age, nationality := st.nationality,
             team := st.team, match_count := st.match_count, roles := st.roles,
             potential := st.potential }]

/-! ## Heavy-HTML stripping — `strip_heavy_html`
`HEAVY_TAGS_RE = (<img[^>]*>|<table[\s\S]*?</table>)` (IGNORECASE), global
substitution by the empty string, then `str.strip()`. -/

/-- The lazy `[\s\S]*?</table>`: rest after the earliest `</table>`. -/
def findTableClose : Str → Option Str
  | [] => none
  | s@(_ :: cs) =>
    match stripPrefixCI (str "</table>") s with
    | some rest => some rest
    | none => findTableClose cs

/-- A heavy tag anchored at the start of `s`: rest after it. -/
def heavyTagAt (s : Str) : Option Str :=
  match stripPrefixCI (str "<img") s with
  | some r =>
    match r.dropWhile (· ≠ '>') with
    | '>' :: rest => some rest
    | _ => none
  | none =>
    match stripPrefixCI (str "<table") s with
    | some r => findTableClose r
    | none => none

/-- Global substitution of heavy tags by `""`.  The fuel starts at the
input's length and every step consumes at least one character, so it never
runs out. -/
def heavySubFuel : Nat → Str → Str
  | 0, s => s
  | fuel + 1, s =>
    match s with
    | [] => []
    | c :: cs =>
      match heavyTagAt s with
      | some rest => heavySubFuel fuel rest
      | none => c :: heavySubFuel fuel cs

/-- `tools_extensions.strip_heavy_html`. -/
def strip_heavy_html (t : Str) : Str := pyStrip (heavySubFuel t.length t)

/-! ## Meta parser — `tools_extensions.parse_player_meta_new`
The LLM chain plus `json.loads` is an oracle input: `.error` models a
raised/invalid-JSON outcome (the source's bare `except:` turns it into
`{}`); `.ok` carries the decoded `players` array. -/

/-- The `roles` field of one decoded player object: absent/`null`, a JSON
list, or a scalar (which the source wraps with `[str(roles)]`). -/
inductive RolesIn
  | missing
  | list (rs : List Str)
  | scalar (s : Str)
deriving Repr, DecidableEq

/-- One decoded player object of the meta chain's JSON.  Numeric fields
are modelled at the integer values the pipeline actually carries. -/
structure MetaIn where
  name : Option Str := none
  gender : Option Str := none
  height : Option Int := none
  weight : Option Int := none
  age : Option Int := none
  nationality : Option Str := none
  team : Option Str := none
  match_count : Option Int := none
  roles : RolesIn := .missing
  potential : Option Int := none
deriving Repr, DecidableEq

/-- `p.get("roles") or []`, then `[str(roles)]` when not a list. -/
def rolesOut : RolesIn → List Str
  | .missing => []
  | .list rs => rs
  | .scalar s => if s.isEmpty then [] else [s]

/-- The source's clamp `max(0, min(100, pot))` on `potential`. -/
def clampPotential (v : Int) : Int := max 0 (min 100 v)

/-- The normalization loop body of `parse_player_meta_new`: every field is
passed through except `roles` (coerced to a list) and `potential`
(`int(float(pot))` — the identity on the modelled integers — then clamped
into `[0, 100]`; a non-numeric JSON value, which the source maps to
`None`, is modelled by `none`). -/
def normalizeMetaPlayer (p : MetaIn) : PlayerOut :=
  { name := p.name, gender := p.gender, height := p.height, weight := p.weight,
    age := p.age, nationality := p.nationality, team := p.team,
    match_count := p.match_count, roles := rolesOut p.roles,
    potential := p.potential.map clampPotential }

/-- `tools_extensions.parse_player_meta_new`: LLM JSON normalization with
a fall back to the block parser when it yields no players.  The fallback's
possible `IndexError` propagates. -/
def parse_player_meta_new (metaResult : Except Unit (List MetaIn)) (raw_text : Str) :
    Except Unit (List PlayerOut) :=
  let safe := strip_heavy_html raw_text
  let players_out :=
    match metaResult with
    | .error _ => []
    | .ok ps => ps.map normalizeMetaPlayer
  if players_out.isEmpty then fallback_parse_profile_block_new safe
  else .ok players_out

/-! ## Stats parser — `tools.parse_statistical_highlights`
The chain's `predict` may raise (handled by the caller); invalid JSON is
turned into `{"players": []}` locally, so the oracle below is the decoded
`players` array of a successful call. -/

/-- One decoded stats player: `stats` entries carry optional metric and
value (`None`s and non-numeric values are dropped entry by entry). -/
structure StatsPlayerIn where
  name : Option Str := none
  stats : List (Option Str × Option Int) := []
deriving Repr, DecidableEq

/-- The normalization loop of `parse_statistical_highlights`: entries with
a missing metric or value are skipped, a player with no surviving entry is
dropped, a falsy name becomes `"Player"`. -/
def stats_norm (ps : List StatsPlayerIn) : List StatsPlayer :=
  ps.filterMap fun p =>
    let statsOut := p.stats.filterMap fun mv =>
      match mv with
      | (some m, some v) => some (⟨m, v⟩ : StatEntry)
      | _ => none
    if statsOut.isEmpty then none
    else
      some ⟨(match p.name with
             | none => str "Player"
             | some s => if s.isEmpty then str "Player" else s), statsOut⟩

/-! ## Seen-player scan — `tools.get_seen_players_from_history`
`PLAYER_PROFILE_OPEN_TAG_RE = \[\[\s*PLAYER_PROFILE\s*:\s*(.*?)\s*\]\]`
(IGNORECASE), applied with `finditer`.  After the colon the greedy `\s*`
is tried longest-first; the lazy dot group (which cannot cross a newline)
grows until `\s*\]\]` matches (deterministic: skip whitespace, expect
`]]`). -/

/-- `\s*\]\]` anchored at the start of `s`. -/
def wsThenRBrackets (s : Str) : Option Str :=
  match s.dropWhile pyIsSpace with
  | ']' :: ']' :: rest => some rest
  | _ => none

/-- The lazy `(.*?)\s*\]\]`: shortest newline-free group such that
`\s*\]\]` follows; `some (group, rest after "]]")`. -/
def lazyDotGroup : Str → Option (Str × Str)
  | [] =>
    match wsThenRBrackets [] with
    | some rest => some ([], rest)
    | none => none
  | c :: cs =>
    match wsThenRBrackets (c :: cs) with
    | some rest => some ([], rest)
    | none =>
      if c = '\n' then none
      else
        match lazyDotGroup cs with
        | some (g, rest) => some (c :: g, rest)
        | none => none

/-- The greedy `\s*` before the lazy group, longest prefix first:
`go k` tries the group after `k` whitespace characters. -/
def wsGroupGo (s : Str) : Nat → Option (Str × Str)
  | 0 => lazyDotGroup s
  | k + 1 =>
    match lazyDotGroup (s.drop (k + 1)) with
    | some r => some r
    | none => wsGroupGo s k

/-- `\s*(.*?)\s*\]\]` with the engine's backtracking order. -/
def wsBacktrackGroup (s : Str) : Option (Str × Str) :=
  wsGroupGo s (s.takeWhile pyIsSpace).length

/-- `PLAYER_PROFILE_OPEN_TAG_RE` anchored at the start of `s`:
`some (captured group, rest after the match)`. -/
def openTagOT (s : Str) : Option (Str × Str) :=
  match s with
  | '[' :: '[' :: r =>
    match stripPrefixCI (str "player_profile") (r.dropWhile pyIsSpace) with
    | none => none
    | some r1 =>
      match r1.dropWhile pyIsSpace with
      | ':' :: r2 => wsBacktrackGroup r2
      | _ => none
  | _ => none

/-- `finditer` of the open-tag pattern: the captured groups in order,
scanning left to right and resuming after each match.  The fuel starts at
the input's length; every step consumes at least one character (a match
spans at least the `"[[" ... "]]"` frame), so it never runs out. -/
def findOpenTagsFuel : Nat → Str → List Str
  | 0, _ => []
  | _, [] => []
  | fuel + 1, s@(_ :: cs) =>
    match openTagOT s with
    | some (g, rest) => g :: findOpenTagsFuel fuel rest
    | none => findOpenTagsFuel fuel cs

/-- All captured groups of the open-tag pattern over `s`. -/
def findOpenTags (s : Str) : List Str := findOpenTagsFuel s.length s

/-- One persisted chat message (`chat_messages` row / hydrated LangChain
message: role `"human"` or `"ai"`). -/
structure ChatMsg where
  role : Str
  content : Str
deriving Repr, DecidableEq

/-- The source's role test `"ai" in role or role == "assistant"`. -/
def roleIsAssistant (r : Str) : Bool :=
  containsSub (str "ai") r || r = str "assistant"

/-- `seen.add(name)` on the list model of a Python set. -/
def insertIfAbsent (n : Str) (acc : List Str) : List Str :=
  if acc.contains n then acc else acc ++ [n]

/-- The inner loop of `get_seen_players_from_history`: add every match's
stripped, nonempty captured name to the set. -/
def addNamesFromContent (acc : List Str) (content : Str) : List Str :=
  (findOpenTags content).foldl
    (fun acc g =>
      let name := pyStrip g
      if name.isEmpty then acc else insertIfAbsent name acc)
    acc

/-- `tools.get_seen_players_from_history`: scan assistant messages for
open-tag matches, strip each captured name, keep the nonempty ones. -/
def get_seen_players_from_history (history : List ChatMsg) : List Str :=
  history.foldl
    (fun seen msg =>
      if roleIsAssistant msg.role then addNamesFromContent seen msg.content
      else seen)
    []

/-! ## Narrative stripper — `tools.strip_meta_stats_text`

Line classifiers for the patterns the stripper applies with `.match` /
`.fullmatch`.  Patterns anchored `^\s* ... \s*$` are decided on the
`str.strip()`-ed line; patterns whose tail is `.+$` (which is sensitive to
trailing whitespace) are decided after stripping the left edge only. -/

/-- `line.strip() == ""`. -/
def blankLine (l : Str) : Bool := l.all pyIsSpace

/-- The keyword alternation `(PLAYER_PROFILE|PLAYER_STATS)` (IGNORECASE). -/
def tagKeywordCI (s : Str) : Option Str :=
  match stripPrefixCI (str "player_profile") s with
  | some r => some r
  | none => stripPrefixCI (str "player_stats") s

/-- `FLAG_BLOCK_START_RE`'s tail after the keyword: `(?::[^\]]+)?\]\]\s*$`
(on an already-stripped line the trailing `\s*$` means the rest must be
empty). -/
def fsAfterKeyword : Str → Bool
  | ']' :: ']' :: r2 => r2.isEmpty
  | ':' :: r2 =>
    (!(r2.takeWhile (· ≠ ']')).isEmpty) &&
      (match r2.dropWhile (· ≠ ']') with
       | ']' :: ']' :: r3 => r3.isEmpty
       | _ => false)
  | _ => false

/-- `FLAG_BLOCK_START_RE = ^\s*\[\[(PLAYER_PROFILE|PLAYER_STATS)(?::[^\]]+)?\]\]\s*$`
on the stripped line. -/
def flagStartCore : Str → Bool
  | '[' :: '[' :: r =>
    (match tagKeywordCI r with
     | none => false
     | some r1 => fsAfterKeyword r1)
  | _ => false

/-- A line is a flagged-block start. -/
def flagStart (l : Str) : Bool := flagStartCore (pyStrip l)

/-- `FLAG_BLOCK_END_RE = ^\s*\[\[/(PLAYER_PROFILE|PLAYER_STATS)\]\]\s*$`
on the stripped line. -/
def flagEndCore : Str → Bool
  | '[' :: '[' :: '/' :: r =>
    (match tagKeywordCI r with
     | none => false
     | some r1 => r1 = [']', ']'])
  | _ => false

/-- A line is a flagged-block end. -/
def flagEnd (l : Str) : Bool := flagEndCore (pyStrip l)

/-- `STATS_HEADER_RE = ^\s*\*\*Performance\s+Statistics\*\*\s*:?\s*$`
on the stripped line. -/
def statsHeaderCore : Str → Bool
  | '*' :: '*' :: r =>
    (match stripPrefixCI (str "performance") r with
     | none => false
     | some r1 =>
       match r1 with
       | [] => false
       | c :: r2 =>
         if pyIsSpace c then
           match stripPrefixCI (str "statistics") (r2.dropWhile pyIsSpace) with
           | none => false
           | some r3 =>
             match r3 with
             | '*' :: '*' :: r4 =>
               let r5 := r4.dropWhile pyIsSpace
               r5.isEmpty || r5 = [':']
             | _ => false
         else false)
  | _ => false

/-- A line is the `**Performance Statistics**` header. -/
def statsHeader (l : Str) : Bool := statsHeaderCore (pyStrip l)

/-- The rests reachable after `Age(?:\s*(?:\(as\s*of\s*2025\)|\(2025\))?)?`. -/
def mlAgeCands (r : Str) : List Str :=
  let r1 := r.dropWhile pyIsSpace
  let asOf :=
    match stripPrefixCI (str "(as") r1 with
    | some a =>
      (match stripPrefixCI (str "of") (a.dropWhile pyIsSpace) with
       | some b =>
         match stripPrefixCI (str "2025)") (b.dropWhile pyIsSpace) with
         | some c => [c]
         | none => []
       | none => [])
    | none => []
  let y2025 :=
    match stripPrefixCI (str "(2025)") r1 with
    | some a => [a]
    | none => []
  r :: r1 :: asOf ++ y2025

/-- The rests after an optional `s?` (IGNORECASE). -/
def sOpt (b : Str) : List Str :=
  b :: (match b with
        | c :: b2 => if charLower c = 's' then [b2] else []
        | [] => [])

/-- The rests reachable after `META_LINE_RE`'s field alternation. -/
def fieldCands (r : Str) : List Str :=
  (match stripPrefixCI (str "nationality") r with
   | some a => [a]
   | none => [])
  ++ (match stripPrefixCI (str "age") r with
      | some a => mlAgeCands a
      | none => [])
  ++ (match stripPrefixCI (str "primary") r with
      | some a =>
        (match stripPrefixCI (str "role") (a.dropWhile pyIsSpace) with
         | some b => [b]
         | none => [])
      | none => [])
  ++ (match stripPrefixCI (str "secondary") r with
      | some a =>
        (match stripPrefixCI (str "role") (a.dropWhile pyIsSpace) with
         | some b => sOpt b
         | none => [])
      | none => [])
  ++ (match stripPrefixCI (str "role") r with
      | some a => sOpt a
      | none => [])

/-- The closing `\*\*:` of a meta-field candidate together with the
`\s*.+$` tail (which holds exactly when anything, whitespace included,
follows the `**:`). -/
def fcProbe (c : Str) : Bool :=
  match stripPrefixCI (str "**:") c with
  | some rest => !rest.isEmpty
  | none => false

/-- `META_LINE_RE`'s body after the leading `-`: `\s*\*\*(FIELDS)\*\*:\s*.+$`. -/
def mlAfterDash (r0 : Str) : Bool :=
  match r0.dropWhile pyIsSpace with
  | '*' :: '*' :: r2 => (fieldCands r2).any fcProbe
  | _ => false

/-- `META_LINE_RE = ^\s*-\s*\*\*(FIELDS)\*\*:\s*.+$` after left-stripping. -/
def metaLineCore : Str → Bool
  | '-' :: r0 => mlAfterDash r0
  | _ => false

/-- A line is a legacy meta bullet. -/
def metaLine (l : Str) : Bool := metaLineCore (l.dropWhile pyIsSpace)

/-- `STATS_ITEM_RE = ^\s*(?:\d+\.\s+|\-\s+\*\*[^*]+?\*\*:\s+).+?$` after
left-stripping. -/
def statsItemCore (s : Str) : Bool :=
  (let ds := s.takeWhile Char.isDigit
   (!ds.isEmpty) &&
     (match s.dropWhile Char.isDigit with
      | '.' :: c :: r2 => pyIsSpace c && !r2.isEmpty
      | _ => false))
  || (match s with
      | '-' :: c :: r1 =>
        pyIsSpace c &&
          (match r1.dropWhile pyIsSpace with
           | '*' :: '*' :: r2 =>
             (!(r2.takeWhile (· ≠ '*')).isEmpty) &&
               (match r2.dropWhile (· ≠ '*') with
                | '*' :: '*' :: ':' :: c2 :: r4 => pyIsSpace c2 && !r4.isEmpty
                | _ => false)
           | _ => false)
      | _ => false)

/-- A line is a stats-list item. -/
def statsItem (l : Str) : Bool := statsItemCore (l.dropWhile pyIsSpace)

/-- The lazy `(?P<name>.+?)\*\*\s*$`: the shortest nonempty name followed
by `**` and trailing whitespace. -/
def nameCaptureGo (acc : Str) : Str → Option Str
  | [] => none
  | c :: cs =>
    if !acc.isEmpty && c = '*' && (match cs with
                                   | '*' :: t => t.all pyIsSpace
                                   | _ => false) then
      some acc.reverse
    else nameCaptureGo (c :: acc) cs

/-- See `nameCaptureGo`. -/
def nameCapture (r : Str) : Option Str := nameCaptureGo [] r

/-- The greedy `\s*:?\s*` after `Analysis`. -/
def paAfterAnalysis (b : Str) : Str :=
  let b1 := b.dropWhile pyIsSpace
  match b1 with
  | ':' :: bb => bb.dropWhile pyIsSpace
  | _ => b1

/-- `PLAYER_ANALYSIS_HEADER_RE.fullmatch` on the left-stripped line: the
greedy `(?:Player\s+Analysis\s*:?\s*)?` prefix is tried first, then the
bare name.  (When the greedy path fails, partial give-backs of the
prefix's trailing `\s*:?\s*` can let the engine capture a name that keeps
some of those characters; match existence is unaffected and the capture is
only ever tested for truthiness downstream.) -/
def paNameOf (t : Str) : Option Str :=
  match t with
  | '*' :: '*' :: r =>
    let viaPa : Option Str :=
      match stripPrefixCI (str "player") r with
      | some a =>
        (match a with
         | [] => none
         | c :: a2 =>
           if pyIsSpace c then
             match stripPrefixCI (str "analysis") (a2.dropWhile pyIsSpace) with
             | some b => nameCapture (paAfterAnalysis b)
             | none => none
           else none)
      | none => none
    (match viaPa with
     | some nm => some nm
     | none => nameCapture r)
  | _ => none

/-- Python `str.title()`, ASCII subset (a letter is upper-cased after an
uncased character and lower-cased after a cased one). -/
def pyTitleGo : Bool → Str → Str
  | _, [] => []
  | prevCased, c :: cs =>
    if c.isAlpha then
      (if prevCased then charLower c else charUpper c) :: pyTitleGo true cs
    else c :: pyTitleGo false cs

/-- See `pyTitleGo`. -/
def pyTitle (s : Str) : Str := pyTitleGo false s

/-- Python `s.split()` (whitespace runs, empty words dropped).  The fuel
starts at the input's length and each step consumes at least one
character. -/
def wordSplitFuel : Nat → Str → List Str
  | 0, _ => []
  | fuel + 1, s =>
    match s.dropWhile pyIsSpace with
    | [] => []
    | t =>
      t.takeWhile (fun c => !pyIsSpace c) ::
        wordSplitFuel fuel (t.dropWhile (fun c => !pyIsSpace c))

/-- See `wordSplitFuel`. -/
def wordSplit (s : Str) : List Str := wordSplitFuel s.length s

/-- `looks_like_name_or_analysis_header`: the header regex's stripped
capture, else the title-cased multi-word fallback, else `None`. -/
def looks_like_name_or_analysis_header (l : Str) : Option Str :=
  match paNameOf (l.dropWhile pyIsSpace) with
  | some nm => some (pyStrip nm)
  | none =>
    let t := pyStrip l
    if !t.isEmpty && t = pyTitle t && 2 ≤ (wordSplit t).length then some t
    else none

/-- Truthiness of the header scan's result (`if nm:`). -/
def headerTruthy (l : Str) : Bool :=
  match looks_like_name_or_analysis_header l with
  | some nm => !nm.isEmpty
  | none => false

/-- The `saw_meta` lookahead: skipping blank lines, is the next
(blank-or-meta run) line a meta bullet? -/
def sawMetaB : List Str → Bool
  | [] => false
  | l :: rest => if blankLine l then sawMetaB rest else metaLine l

/-- The `saw_stats` lookahead: skipping blank lines, is the next line the
stats header? -/
def sawStatsB : List Str → Bool
  | [] => false
  | l :: rest => if blankLine l then sawStatsB rest else statsHeader l

/-- Pass (A) of `strip_meta_stats_text` with its loop position made
explicit: `inBlock = true` is the inner skip-to-end loop.  Drops flagged
blocks entirely (from a start line to the first end line, or to the end
of input). -/
def passAGo : Bool → List Str → List Str
  | _, [] => []
  | false, l :: rest =>
    if flagStart l then passAGo true rest else l :: passAGo false rest
  | true, x :: xs =>
    if flagEnd x then passAGo false xs else passAGo true xs

/-- Pass (A): see `passAGo`. -/
def passA (ls : List Str) : List Str := passAGo false ls

/-- Pass (B) of `strip_meta_stats_text` with its loop position made
explicit: `inStats = true` is the inner stats-item skip loop, whose first
non-blank, non-item line falls back to the ordinary handling (the outer
loop re-examines it).  Drops a header line followed by meta bullets or a
stats block, drops meta bullets, drops stats blocks. -/
def passBGo : Bool → List Str → List Str
  | _, [] => []
  | inStats, x :: xs =>
    if inStats && (blankLine x || statsItem x) then passBGo true xs
    else if headerTruthy x && (sawMetaB xs || sawStatsB xs) then passBGo false xs
    else if metaLine x then passBGo false xs
    else if statsHeader x then passBGo true xs
    else x :: passBGo false xs

/-- Pass (B): see `passBGo`. -/
def passB (ls : List Str) : List Str := passBGo false ls

/-- Flush a pending run of `p` newlines under `re.sub(r"\n{3,}", "\n\n", ·)`. -/
def emitNL (p : Nat) : Str := if 3 ≤ p then ['\n', '\n'] else List.replicate p '\n'

/-- `re.sub(r"\n{3,}", "\n\n", s)` with the current newline-run length
carried along: every maximal newline run of length at least three becomes
exactly two newlines. -/
def collapseGo : Nat → Str → Str
  | pending, [] => emitNL pending
  | pending, c :: cs =>
    if c = '\n' then collapseGo (pending + 1) cs
    else emitNL pending ++ c :: collapseGo 0 cs

/-- See `collapseGo`. -/
def collapseNL (s : Str) : Str := collapseGo 0 s

/-- `tools.strip_meta_stats_text` (the `known_names` parameter is accepted
and never read, exactly as in the source). -/
def strip_meta_stats_text (text : Str) (known_names : List Str) : Str :=
  if text.isEmpty then text
  else pyStrip (collapseNL (joinNL (passB (passA (splitLines text)))))

/-! ## Turn orchestrator — `chatbot.answer_question` and the `/chat`
endpoint of `api_module/main.py`

External calls are oracle inputs: `.error` models a raised exception.
`genResult` is the chat chain's outcome (`.ok raw` carries
`result.get("answer") or ""`, so an empty or answer-less response is
`.ok []`, not an error).  The prompt-assembly strings (selection preamble,
intent nudge, translated question) flow only into the generator oracle and
are therefore not modelled; the inbound translator catches its own
exceptions and so cannot affect anything observable here. -/

/-- Raised exceptions distinguished by the model. -/
inductive PyErr
  | typeError
  | chainError
  | indexError
deriving Repr, DecidableEq

/-- Parameter count of `build_player_payload_new` as defined in
`tools_extensions.py` (`def build_player_payload_new(meta)`), -/
def build_player_payload_new_param_count : Nat := 1

/-- Argument count at `chatbot.py`'s call site
(`build_player_payload_new(meta_new, stats_new)`). -/
def answer_question_payload_call_args : Nat := 2

/-- Python call arity check: a call whose argument count differs from the
callee's parameter count raises `TypeError` before the body runs. -/
def pyCallArity (params args : Nat) : Except PyErr Unit :=
  if params = args then .ok () else .error .typeError

/-- The outward payload `{"players": [...]}`. -/
structure Payload where
  players : List PlayerOut
deriving Repr, DecidableEq

/-- `{"players": []}`. -/
def emptyPayload : Payload := ⟨[]⟩

/-- Modelled from the spec: `is_turkish` is imported from
`chatbot_module.tools` but not defined in the repository's files.  §4.4
makes translation a no-op when the session language equals the pivot
(English) and the glossary names Turkish as the other presentation
language, so the test holds exactly of the Turkish language code. -/
def is_turkish (lang : Str) : Bool := lang = str "tr"

/-- The fixed fallback narrative of `answer_question`. -/
def fallbackText : Str := str "Sorry, I couldn’t generate an answer right now."

/-- The inputs of one turn: session state plus the oracles for every
external call the turn can make. -/
structure TurnIn where
  question : Str
  lang : Str
  log0 : List ChatMsg
  genResult : Except Unit Str
  statsResult : Except Unit (List StatsPlayerIn)
  metaResult : Except Unit (List MetaIn)
  transOut : Except Unit Str
  dbPayload : Payload

/-- The returned dictionary of `answer_question`: which keys are present
and what `answer`/`data` hold. -/
structure TurnOut where
  answer : Str
  data : Option Payload := none
  hasError : Bool := false
  hasAnswerRaw : Bool := false
deriving Repr, DecidableEq

/-- The `try:` block from the stats parse to the return of the success
dictionary (lines 275–341 of `chatbot.py`): either `(narrative, payload)`
or the exception the `except` branch receives.  The structured-payload
step calls `build_player_payload_new` with two arguments against its one
parameter, so it raises whenever `new_names` is nonempty; the `dbPayload`
oracle stands for the value the call would produce if its arity matched. -/
def tryParseStage (t : TurnIn) (base : Str) (seen : List Str) :
    Except PyErr (Str × Payload) := do
  let parsed_stats ←
    match t.statsResult with
    | .error _ => Except.error PyErr.chainError
    | .ok ps => Except.ok (stats_norm ps)
  let meta ←
    match parse_player_meta_new t.metaResult base with
    | .error _ => Except.error PyErr.indexError
    | .ok ms => Except.ok ms
  let fp := filter_players_by_seen meta parsed_stats seen
  let new_names := fp.2.2
  let payload ←
    if new_names.isEmpty then Except.ok emptyPayload
    else do
      let _ ← pyCallArity build_player_payload_new_param_count
        answer_question_payload_call_args
      Except.ok t.dbPayload
  let known_names := (meta.filter (fun p => nameTruthy p.name)).filterMap (fun p => p.name)
  let cleaned := strip_meta_stats_text base known_names
  let out :=
    if is_turkish t.lang then
      match t.transOut with
      | .ok tr => if (pyStrip tr).isEmpty then cleaned else pyStrip tr
      | .error _ => cleaned
    else cleaned
  Except.ok (out, payload)

/-- `chatbot.answer_question` from the generator call on: the returned
dictionary and the session's message log after the turn. -/
def answer_question (t : TurnIn) : TurnOut × List ChatMsg :=
  let seen := get_seen_players_from_history t.log0
  match t.genResult with
  | .error _ =>
    ({ answer := fallbackText, hasAnswerRaw := true },
     t.log0 ++ [⟨str "human", t.question⟩, ⟨str "ai", fallbackText⟩])
  | .ok raw =>
    let base := pyStrip raw
    let log1 := t.log0 ++ [⟨str "human", t.question⟩, ⟨str "ai", base⟩]
    match tryParseStage t base seen with
    | .ok (out, payload) => ({ answer := out, data := some payload }, log1)
    | .error _ =>
      ({ answer := fallbackText, hasError := true },
       log1 ++ [⟨str "human", t.question⟩, ⟨str "ai", base⟩])

/-- The `/chat` endpoint's payload projection:
`result.get("data") or {"players": []}`. -/
def chat_payload_of (r : TurnOut) : Payload :=
  match r.data with
  | some p => p
  | none => emptyPayload

/-- The `/chat` endpoint's narrative projection:
`(result.get("answer") or "").strip()`. -/
def chat_response_of (r : TurnOut) : Str := pyStrip r.answer

/-! ### Concrete turn fixtures (inputs for closed statements) -/

/-- A turn on a fresh session whose generation succeeds and whose meta
parse yields one new player. -/
def turnNewPlayer : TurnIn :=
  { question := str "q", lang := str "en", log0 := [],
    genResult := .ok (str "Jude is a promising midfielder."),
    statsResult := .ok [], metaResult := .ok [{ name := some (str "Jude") }],
    transOut := .ok [], dbPayload := emptyPayload }

/-- A turn whose generator call raises. -/
def turnGenError : TurnIn :=
  { question := str "q", lang := str "en", log0 := [],
    genResult := .error (), statsResult := .ok [], metaResult := .ok [],
    transOut := .ok [], dbPayload := emptyPayload }

/-- A turn whose generator returns an empty response. -/
def turnEmptyResponse : TurnIn :=
  { question := str "q", lang := str "en", log0 := [],
    genResult := .ok [], statsResult := .ok [], metaResult := .ok [],
    transOut := .ok [], dbPayload := emptyPayload }

/-- A turn whose stats-parser chain raises. -/
def turnStatsRaise : TurnIn :=
  { question := str "q", lang := str "en", log0 := [],
    genResult := .ok (str "Jude is a promising midfielder."),
    statsResult := .error (), metaResult := .ok [], transOut := .ok [],
    dbPayload := emptyPayload }

/-- A turn that succeeds end to end (no entities parsed). -/
def turnPlain : TurnIn :=
  { question := str "q", lang := str "en", log0 := [],
    genResult := .ok (str "All good."), statsResult := .ok [],
    metaResult := .ok [], transOut := .ok [], dbPayload := emptyPayload }

/-! ## Decidable scans over a text's positions (for statements about
unterminated blocks) -/

/-- No position of `t` starts a close token of `PROFILE_BLOCK_RE`'s close
alternation. -/
def noCloseAnywhereB (t : Str) : Bool :=
  (List.range (t.length + 1)).all fun i => (closeTagPB (t.drop i)).isNone

/-- Some position of `t` starts a `PLAYER_PROFILE` open tag after which no
close token occurs. -/
def hasUnterminatedOpenB (t : Str) : Bool :=
  (List.range (t.length + 1)).any fun i =>
    match openTagPB (t.drop i) with
    | some (_, rest) => noCloseAnywhereB rest
    | none => false

/-! ### Auxiliary notions for the stripper theorems -/

/-- Apply `f` to the last element of a list. -/
def modifyLast (f : Str → Str) : List Str → List Str
  | [] => []
  | [x] => [f x]
  | x :: y :: xs => x :: modifyLast f (y :: xs)

/-- `m` is `l` with some leading and trailing whitespace removed. -/
def edgeVar (m l : Str) : Prop :=
  ∃ a b, l = a ++ m ++ b ∧ a.all pyIsSpace = true ∧ b.all pyIsSpace = true

/-- A line none of the stripper's removal patterns matches. -/
def lineClean (l : Str) : Prop :=
  flagStart l = false ∧ metaLine l = false ∧ statsHeader l = false

/-- The string starts with two newlines. -/
def startsNN : Str → Bool
  | c :: d :: _ => c = '\n' && d = '\n'
  | _ => false

/-- No three consecutive newlines anywhere in the string (the fixed points
of `re.sub(r"\n{3,}", "\n\n", ·)`). -/
def noTripleB : Str → Bool
  | [] => true
  | c :: cs => !(c = '\n' && startsNN cs) && noTripleB cs

/-! ### Helper predicates for quantified statements -/

/-- `matchesCI pat q`: `q` is a string whose ASCII lower-casing is `pat`
(so a case-insensitive literal consumes exactly `q`). -/
def matchesCI : Str → Str → Bool
  | [], [] => true
  | p :: ps, c :: cs => charLower c = p && matchesCI ps cs
  | _, _ => false

/-- A well-behaved entity name for tag statements: nonempty, and free of
whitespace, brackets and newlines (so the regex captures it verbatim). -/
def okTagName (name : Str) : Bool :=
  !name.isEmpty &&
    name.all fun c => !pyIsSpace c && c ≠ ']' && c ≠ '[' && c ≠ '\n'

/-! # Theorems -/

/-! ### C4 — dedup-filter normalization is trimmed but case-sensitive -/

/-- C4 counterexample: with `"Jude"` in the seen set, the parsed name
`"jude"` — differing only in letter case — is classified new by
`filter_players_by_seen`, so the filter does not case-fold. -/
theorem C4_counterexample_case_only_difference_is_new :
    newNamesOf [{ name := some (str "jude") }] [] [str "Jude"] = [str "jude"] ∧
      lowerStr (pyStrip (str "jude")) = lowerStr (pyStrip (str "Jude")) := by
  exact ⟨rfl, rfl⟩

/-- C4 amended: an entity is new iff its `str.strip()`-normalized name is
nonempty, occurs among the parsed meta or stats players (those with a
truthy name), and differs — case-sensitively — from every normalized seen
name. -/
theorem C4_amended_dedup_trimmed_case_sensitive (meta : List PlayerOut)
    (stats : List StatsPlayer) (seen : List Str) (n : Str) :
    n ∈ newNamesOf meta stats seen ↔
      n ≠ [] ∧
      ((∃ p ∈ meta, nameTruthy p.name = true ∧ pyStrip (nameOrEmpty p.name) = n) ∨
        ∃ q ∈ stats, q.name ≠ [] ∧ pyStrip q.name = n) ∧
      ∀ s ∈ seen, pyStrip s ≠ n := by
  have hc : ∀ (l : List Str) (a : Str), l.contains a = false ↔ a ∉ l := by
    intro l a
    rw [Bool.eq_false_iff, ne_eq]
    simp [List.elem_iff]
  have hie : ∀ l : Str, l.isEmpty = false ↔ l ≠ [] := by
    intro l
    rw [Bool.eq_false_iff, ne_eq, List.isEmpty_iff]
  simp only [newNamesOf, filter_players_by_seen, List.mem_filter, List.mem_append,
    List.mem_map, Bool.and_eq_true, Bool.not_eq_true', hc, hie, List.isEmpty_eq_true,
    List.mem_map, not_exists, not_and, ne_eq, nameTruthy]
  constructor
  · rintro ⟨h1, h2, h3⟩
    refine ⟨h2, ?_, ?_⟩
    · rcases h1 with ⟨p, hp, rfl⟩ | ⟨q, hq, rfl⟩
      · exact Or.inl ⟨p, hp.1, hp.2, rfl⟩
      · exact Or.inr ⟨q, hq.1, by simpa using hq.2, rfl⟩
    · intro s hs heq
      exact h3 s hs heq
  · rintro ⟨hne, h1, h3⟩
    refine ⟨?_, hne, ?_⟩
    · rcases h1 with ⟨p, hp, hmem, rfl⟩ | ⟨q, hq, hmem, rfl⟩
      · exact Or.inl ⟨p, ⟨hp, hmem⟩, rfl⟩
      · exact Or.inr ⟨q, ⟨hq, by simpa using hmem⟩, rfl⟩
    · intro s hs heq
      exact h3 s hs heq

/-! ### C5 — cross-kind closing needs a name part -/

/-- C5 counterexample: a PROFILE block terminated by the bare
`[[/PLAYER_STATS]]` does not parse (the close alternation of
`PROFILE_BLOCK_RE` requires a `:`-separated name part on a
`PLAYER_STATS` tag), so no PROFILE block is extracted for `X`. -/
theorem C5_counterexample_bare_stats_close_rejected :
    fallback_parse_profile_block_new
        (str "[[PLAYER_PROFILE:X]]\n- Age: 21\n[[/PLAYER_STATS]]") = .ok [] := by
  rfl

/-- C5 amended: the cross-kind close is accepted when the `PLAYER_STATS`
tag carries a name part — `[[PLAYER_PROFILE:X]]...[[/PLAYER_STATS:X]]`
parses as one well-formed PROFILE block for `X`. -/
theorem C5_amended_named_stats_close_accepted :
    fallback_parse_profile_block_new
        (str "[[PLAYER_PROFILE:X]]\n- Age: 21\n[[/PLAYER_STATS:X]]") =
      .ok [{ name := some (str "X"), age := some 21 }] := by
  rfl

/-! ### C9 — `potential` is clamped by the meta parser -/

/-- C9 counterexample: the normalization loop of `parse_player_meta_new`
clamps `potential = 150` to `100`, so numeric profile fields are not all
returned as parsed. -/
theorem C9_counterexample_potential_clamped :
    (normalizeMetaPlayer { name := some (str "Jude"), potential := some 150 }).potential
        = some 100 ∧ (150 : Int) ≠ 100 := by
  exact ⟨rfl, by decide⟩

/-- C9 amended: `parse_player_meta_new`'s normalization clamps `potential`
into `[0, 100]` while `age` passes through as parsed; the fallback block
parser does not clamp (`- Potential: 150` stays `150`). -/
theorem C9_amended_potential_clamped_age_not (p : MetaIn) :
    (normalizeMetaPlayer p).potential = p.potential.map clampPotential ∧
    (normalizeMetaPlayer p).age = p.age ∧
    (∀ v : Int, (normalizeMetaPlayer p).potential = some v → 0 ≤ v ∧ v ≤ 100) ∧
    fallback_parse_profile_block_new
        (str "[[PLAYER_PROFILE:X]]\n- Potential: 150\n[[/PLAYER_PROFILE]]") =
      .ok [{ name := some (str "X"), potential := some 150 }] := by
  refine ⟨rfl, rfl, ?_, rfl⟩
  intro v hv
  rw [show (normalizeMetaPlayer p).potential = p.potential.map clampPotential from rfl]
    at hv
  rcases (Option.map_eq_some'.mp hv) with ⟨w, _, hwv⟩
  subst hwv
  unfold clampPotential
  omega

/-! ### C6, C7 — counterexamples about unterminated open tags -/

/-- C6 counterexample: a text holding a complete PROFILE block for `A`
and, after it, an open tag for `X` with no close anywhere after it: the
parser still extracts the entity `A` (one entity, not zero). -/
theorem C6_counterexample_earlier_block_still_extracted :
    hasUnterminatedOpenB
        (str "[[PLAYER_PROFILE:A]]\nx\n[[/PLAYER_PROFILE]]\n[[PLAYER_PROFILE:X]]\nrest")
        = true ∧
      fallback_parse_profile_block_new
        (str "[[PLAYER_PROFILE:A]]\nx\n[[/PLAYER_PROFILE]]\n[[PLAYER_PROFILE:X]]\nrest") =
        .ok [{ name := some (str "A") }] := by
  exact ⟨by decide, rfl⟩

/-- C7 counterexample: an assistant message holding only
`[[PLAYER_PROFILE:X]]` with no closing tag anywhere: `X` is a member of
the seen set, though it appears in no well-formed block. -/
theorem C7_counterexample_unclosed_open_is_seen :
    get_seen_players_from_history
        [⟨str "ai", str "[[PLAYER_PROFILE:X]] no close"⟩] = [str "X"] ∧
      noCloseAnywhereB (str "[[PLAYER_PROFILE:X]] no close") = true := by
  exact ⟨rfl, by decide⟩

/-! ### C1 — the structured-payload call's arity mismatch -/

/-- C1: whenever the dedup filter yields at least one new entity name, the
payload step's two-argument call to the one-parameter
`build_player_payload_new` raises `TypeError`, the turn takes the
exception branch, and the returned dictionary carries `error` but no
`data` key. -/
theorem C1_arity_mismatch_no_data_key (t : TurnIn) (raw : Str)
    (sp : List StatsPlayerIn) (meta : List PlayerOut)
    (hg : t.genResult = .ok raw)
    (hs : t.statsResult = .ok sp)
    (hm : parse_player_meta_new t.metaResult (pyStrip raw) = .ok meta)
    (hn : (filter_players_by_seen meta (stats_norm sp)
            (get_seen_players_from_history t.log0)).2.2 ≠ []) :
    (answer_question t).1.data = none ∧ (answer_question t).1.hasError = true ∧
      (answer_question t).1.answer = fallbackText := by
  have hne : (filter_players_by_seen meta (stats_norm sp)
      (get_seen_players_from_history t.log0)).2.2.isEmpty = false := by
    rw [Bool.eq_false_iff, ne_eq, List.isEmpty_iff]
    exact hn
  have htry : tryParseStage t (pyStrip raw) (get_seen_players_from_history t.log0)
      = .error .typeError := by
    unfold tryParseStage
    rw [hs, hm]
    simp [hne, Except.bind, bind, pyCallArity,
      build_player_payload_new_param_count, answer_question_payload_call_args]
  unfold answer_question
  rw [hg]
  simp [htry]

/-- C1 witness: a concrete turn with one new player. -/
theorem C1_witness_concrete_turn :
    (answer_question turnNewPlayer).1.data = none ∧
      (answer_question turnNewPlayer).1.hasError = true ∧
      (answer_question turnNewPlayer).1.answer = fallbackText :=
  C1_arity_mismatch_no_data_key turnNewPlayer
    (str "Jude is a promising midfielder.") [] [{ name := some (str "Jude") }]
    rfl rfl rfl (by decide)

/-! ### C2 — generation failure handling -/

/-- C2 counterexample: an empty generator response (`.ok []` models
`result.get("answer") or ""` being empty) is not treated as a failure:
the persisted assistant message and the returned narrative are the empty
string, not the fixed fallback message. -/
theorem C2_counterexample_empty_response_no_fallback :
    (answer_question turnEmptyResponse).1.answer = [] ∧
      (answer_question turnEmptyResponse).2 =
        [⟨str "human", str "q"⟩, ⟨str "ai", []⟩] ∧
      fallbackText ≠ [] := by
  exact ⟨rfl, rfl, by decide⟩

/-- C2 amended: when the generator call raises (provider error or
timeout), the turn still persists the user's message, persists the fixed
fallback assistant message, returns the fallback text as the narrative —
with an empty entity payload at the `/chat` boundary — and, the model
being a total function, raises nothing past the turn. -/
theorem C2_amended_generation_exception_fallback (t : TurnIn) (e : Unit)
    (hg : t.genResult = .error e) :
    (answer_question t).1.answer = fallbackText ∧
    (answer_question t).1.data = none ∧
    chat_payload_of (answer_question t).1 = emptyPayload ∧
    chat_response_of (answer_question t).1 = fallbackText ∧
    (answer_question t).2 =
      t.log0 ++ [⟨str "human", t.question⟩, ⟨str "ai", fallbackText⟩] := by
  unfold answer_question
  rw [hg]
  refine ⟨rfl, rfl, rfl, ?_, rfl⟩
  show pyStrip fallbackText = fallbackText
  decide

/-- C2 witness: a concrete turn whose generator call raises. -/
theorem C2_witness_concrete_turn :
    (answer_question turnGenError).1.answer = fallbackText ∧
    (answer_question turnGenError).1.data = none ∧
    chat_payload_of (answer_question turnGenError).1 = emptyPayload ∧
    chat_response_of (answer_question turnGenError).1 = fallbackText ∧
    (answer_question turnGenError).2 =
      turnGenError.log0 ++
        [⟨str "human", turnGenError.question⟩, ⟨str "ai", fallbackText⟩] :=
  C2_amended_generation_exception_fallback turnGenError () rfl

/-! ### C3 — persistence multiplicity -/

/-- C3 counterexample: a turn whose generation succeeds and whose parse
stage raises (here through the payload call's arity mismatch) appends the
user message and the assistant text twice each, so persistence is not
exactly-once. -/
theorem C3_counterexample_double_persistence :
    (answer_question turnNewPlayer).2 =
      [⟨str "human", str "q"⟩, ⟨str "ai", str "Jude is a promising midfielder."⟩,
       ⟨str "human", str "q"⟩, ⟨str "ai", str "Jude is a promising midfielder."⟩] := by
  rfl

/-- C3 amended: with a successful generation, the user message and the
raw (pre-translation, pre-stripping) assistant text are appended once
when the parse stage returns, and a second time — duplicating both rows —
when the parse stage raises. -/
theorem C3_amended_persistence_once_or_twice (t : TurnIn) (raw : Str)
    (hg : t.genResult = .ok raw) :
    (answer_question t).2 =
      t.log0 ++ [⟨str "human", t.question⟩, ⟨str "ai", pyStrip raw⟩] ++
        (match tryParseStage t (pyStrip raw) (get_seen_players_from_history t.log0) with
         | .ok _ => []
         | .error _ => [⟨str "human", t.question⟩, ⟨str "ai", pyStrip raw⟩]) := by
  unfold answer_question
  rw [hg]
  cases htry : tryParseStage t (pyStrip raw) (get_seen_players_from_history t.log0) with
  | ok v =>
    rcases v with ⟨out, payload⟩
    simp [htry]
  | error e => simp [htry]

/-- C3 witness: a concrete successful turn (no new players, so the parse
stage returns and each row is appended once). -/
theorem C3_witness_concrete_turn :
    (answer_question turnPlain).2 =
      turnPlain.log0 ++
        [⟨str "human", turnPlain.question⟩, ⟨str "ai", pyStrip (str "All good.")⟩] ++
        (match tryParseStage turnPlain (pyStrip (str "All good."))
            (get_seen_players_from_history turnPlain.log0) with
         | .ok _ => []
         | .error _ =>
             [⟨str "human", turnPlain.question⟩,
              ⟨str "ai", pyStrip (str "All good.")⟩]) :=
  C3_amended_persistence_once_or_twice turnPlain (str "All good.") rfl

/-! ### C8 — parse failure replaces the narrative -/

/-- C8 counterexample: a turn whose stats-parser chain raises returns the
generic fallback message, not the stripped raw text (stripping the raw
generator text would have returned that text here). -/
theorem C8_counterexample_parse_failure_generic_fallback :
    (answer_question turnStatsRaise).1.answer = fallbackText ∧
      strip_meta_stats_text (str "Jude is a promising midfielder.") [] =
        str "Jude is a promising midfielder." ∧
      fallbackText ≠ str "Jude is a promising midfielder." := by
  exact ⟨rfl, by decide, by decide⟩

/-- C8 amended: when the parse stage raises, the turn returns the fixed
fallback message as the narrative with no `data` key (an empty entity
payload at the `/chat` boundary); the stripped narrative is not
returned. -/
theorem C8_amended_parse_failure_fallback (t : TurnIn) (raw : Str) (e : PyErr)
    (hg : t.genResult = .ok raw)
    (htry : tryParseStage t (pyStrip raw) (get_seen_players_from_history t.log0)
      = .error e) :
    (answer_question t).1.answer = fallbackText ∧
    (answer_question t).1.data = none ∧
    chat_payload_of (answer_question t).1 = emptyPayload := by
  unfold answer_question
  rw [hg]
  simp [htry, chat_payload_of]

/-- C8 witness: a concrete turn whose stats chain raises. -/
theorem C8_witness_concrete_turn :
    (answer_question turnStatsRaise).1.answer = fallbackText ∧
    (answer_question turnStatsRaise).1.data = none ∧
    chat_payload_of (answer_question turnStatsRaise).1 = emptyPayload :=
  C8_amended_parse_failure_fallback turnStatsRaise
    (str "Jude is a promising midfielder.") .chainError rfl rfl

/-! ### Shared matcher lemmas -/

/-- A case-insensitive literal consumes exactly the text it matches. -/
theorem stripPrefixCI_append {p q : Str} (s : Str) (h : matchesCI p q = true) :
    stripPrefixCI p (q ++ s) = some s := by
  induction p generalizing q with
  | nil =>
    cases q with
    | nil => rfl
    | cons c cs => simp [matchesCI] at h
  | cons a ps ih =>
    cases q with
    | nil => simp [matchesCI] at h
    | cons c cs =>
      rw [matchesCI, Bool.and_eq_true] at h
      rw [List.cons_append, stripPrefixCI]
      simp only [decide_eq_true_eq] at h
      rw [if_pos h.1]
      exact ih h.2

/-- `dropWhile` keeps a list headed by a non-matching character. -/
theorem dropWhile_cons_neg {p : Char → Bool} {c : Char} (l : Str)
    (h : p c = false) : (c :: l).dropWhile p = c :: l := by
  simp [List.dropWhile_cons, h]

/-- `takeWhile` yields nothing on a list headed by a non-matching
character. -/
theorem takeWhile_cons_neg {p : Char → Bool} {c : Char} (l : Str)
    (h : p c = false) : (c :: l).takeWhile p = [] := by
  simp [List.takeWhile_cons, h]

/-- `rstrip` is the identity on whitespace-free strings. -/
theorem rtrimWs_all_not_ws {s : Str} (h : ∀ c ∈ s, pyIsSpace c = false) :
    rtrimWs s = s := by
  induction s with
  | nil => rfl
  | cons c cs ih =>
    rw [rtrimWs, ih (fun d hd => h d (List.mem_cons_of_mem _ hd))]
    cases cs with
    | nil => simp [h c (List.mem_cons_self _ _)]
    | cons d ds => rfl

/-- `strip` is the identity on whitespace-free strings. -/
theorem pyStrip_all_not_ws {s : Str} (h : ∀ c ∈ s, pyIsSpace c = false) :
    pyStrip s = s := by
  unfold pyStrip ltrimWs
  cases s with
  | nil => rfl
  | cons c cs =>
    rw [dropWhile_cons_neg _ (h c (List.mem_cons_self _ _))]
    exact rtrimWs_all_not_ws h

/-- `\s*\]\]` fails at a non-whitespace, non-`]` character. -/
theorem wsThenRBrackets_cons_ne {c : Char} (l : Str) (hws : pyIsSpace c = false)
    (hne : c ≠ ']') : wsThenRBrackets (c :: l) = none := by
  unfold wsThenRBrackets
  rw [dropWhile_cons_neg _ hws]
  split
  · next heq =>
    exfalso
    apply hne
    injection heq with h1 _
  · rfl

/-- The lazy dot group absorbs a bracket-, whitespace- and newline-free
name and stops at the following `]]`. -/
theorem lazyDotGroup_closes {name : Str} (rest : Str)
    (h : ∀ c ∈ name, pyIsSpace c = false ∧ c ≠ ']' ∧ c ≠ '\n') :
    lazyDotGroup (name ++ ']' :: ']' :: rest) = some (name, rest) := by
  induction name with
  | nil =>
    rw [List.nil_append]
    rfl
  | cons c cs ih =>
    have hc := h c (List.mem_cons_self _ _)
    have htail := fun d hd => h d (List.mem_cons_of_mem _ hd)
    rw [List.cons_append, lazyDotGroup,
      wsThenRBrackets_cons_ne _ hc.1 hc.2.1, ih htail]
    simp [hc.2.2]

/-- The open-tag pattern `PLAYER_PROFILE_OPEN_TAG_RE` matches a literal
`[[PLAYER_PROFILE:<name>]]` frame at the start of a text and captures the
name verbatim. -/
theorem openTagOT_literal_frame {name : Str} (rest : Str)
    (h : okTagName name = true) :
    openTagOT (str "[[PLAYER_PROFILE:" ++ name ++ str "]]" ++ rest)
      = some (name, rest) := by
  have hall : ∀ c ∈ name, pyIsSpace c = false ∧ c ≠ ']' ∧ c ≠ '\n' := by
    intro c hc
    rw [okTagName, Bool.and_eq_true, List.all_eq_true] at h
    have hcp := h.2 c hc
    simp only [Bool.and_eq_true, Bool.not_eq_true', decide_eq_true_eq] at hcp
    exact ⟨hcp.1.1.1, hcp.1.1.2, hcp.2⟩
  have hne : name ≠ [] := by
    intro hnil
    subst hnil
    simp [okTagName] at h
  obtain ⟨n0, name', rfl⟩ : ∃ n0 name', name = n0 :: name' := by
    cases name with
    | nil => exact absurd rfl hne
    | cons a b => exact ⟨a, b, rfl⟩
  have hshape : str "[[PLAYER_PROFILE:" ++ (n0 :: name') ++ str "]]" ++ rest
      = '[' :: '[' :: (str "PLAYER_PROFILE" ++
          (':' :: ((n0 :: name') ++ (']' :: ']' :: rest)))) := by
    rw [List.append_assoc, List.append_assoc]
    rfl
  have hdw : (str "PLAYER_PROFILE" ++
        (':' :: ((n0 :: name') ++ (']' :: ']' :: rest)))).dropWhile pyIsSpace
      = str "PLAYER_PROFILE" ++ (':' :: ((n0 :: name') ++ (']' :: ']' :: rest))) := by
    rw [show str "PLAYER_PROFILE" ++ (':' :: ((n0 :: name') ++ (']' :: ']' :: rest)))
        = 'P' :: (str "LAYER_PROFILE" ++
            (':' :: ((n0 :: name') ++ (']' :: ']' :: rest)))) from rfl]
    exact dropWhile_cons_neg _ (by decide)
  rw [hshape, openTagOT, hdw, stripPrefixCI_append _ (by decide)]
  have hdw2 : (':' :: ((n0 :: name') ++ (']' :: ']' :: rest))).dropWhile pyIsSpace
      = ':' :: ((n0 :: name') ++ (']' :: ']' :: rest)) :=
    dropWhile_cons_neg _ (by decide)
  show (match List.dropWhile pyIsSpace (':' :: ((n0 :: name') ++ (']' :: ']' :: rest))) with
        | ':' :: r2 => wsBacktrackGroup r2
        | _ => none)
      = some (n0 :: name', rest)
  rw [hdw2]
  show wsBacktrackGroup ((n0 :: name') ++ (']' :: ']' :: rest)) = some (n0 :: name', rest)
  unfold wsBacktrackGroup
  rw [show ((n0 :: name') ++ (']' :: ']' :: rest)).takeWhile pyIsSpace = [] from by
    rw [List.cons_append]
    exact takeWhile_cons_neg _ (hall n0 (List.mem_cons_self _ _)).1]
  rw [show ([] : Str).length = 0 from rfl, wsGroupGo]
  exact lazyDotGroup_closes rest hall

/-- Membership survives `insertIfAbsent`. -/
theorem mem_insertIfAbsent_of_mem {a b : Str} {acc : List Str} (h : a ∈ acc) :
    a ∈ insertIfAbsent b acc := by
  unfold insertIfAbsent
  split
  · exact h
  · exact List.mem_append_left _ h

/-- `insertIfAbsent` makes its argument a member. -/
theorem mem_insertIfAbsent_self (a : Str) (acc : List Str) :
    a ∈ insertIfAbsent a acc := by
  unfold insertIfAbsent
  split
  · next hc => exact List.elem_iff.mp hc
  · exact List.mem_append_right _ (List.mem_singleton.mpr rfl)

/-- Membership survives the name-collection fold. -/
theorem mem_namesFold_of_mem {a : Str} {acc : List Str} (gs : List Str)
    (h : a ∈ acc) :
    a ∈ gs.foldl
        (fun acc g =>
          let name := pyStrip g
          if name.isEmpty then acc else insertIfAbsent name acc)
        acc := by
  induction gs generalizing acc with
  | nil => exact h
  | cons g gs ih =>
    rw [List.foldl_cons]
    apply ih
    dsimp only
    split
    · exact h
    · exact mem_insertIfAbsent_of_mem h

/-- Membership survives the inner name-collection fold. -/
theorem mem_addNamesFromContent_of_mem {a : Str} {acc : List Str}
    (content : Str) (h : a ∈ acc) : a ∈ addNamesFromContent acc content :=
  mem_namesFold_of_mem _ h

/-- Membership survives the outer history fold of
`get_seen_players_from_history`. -/
theorem mem_seen_foldl_of_mem {a : Str} {acc : List Str} (h : List ChatMsg)
    (ha : a ∈ acc) :
    a ∈ h.foldl
        (fun seen msg =>
          if roleIsAssistant msg.role then addNamesFromContent seen msg.content
          else seen)
        acc := by
  induction h generalizing acc with
  | nil => exact ha
  | cons m ms ih =>
    rw [List.foldl_cons]
    apply ih
    dsimp only
    split
    · exact mem_addNamesFromContent_of_mem _ ha
    · exact ha

/-! ### C7 — the seen set needs no closing tag -/

/-- C7 amended: the seen set is collected from PROFILE open tags alone:
an assistant message beginning with `[[PLAYER_PROFILE:<name>]]` puts
`<name>` into the seen set whatever follows — in particular with no
closing tag anywhere (`rest` is arbitrary) — and however the session
history continues. -/
theorem C7_amended_open_tag_suffices (name rest : Str) (h : List ChatMsg)
    (hok : okTagName name = true) :
    name ∈ get_seen_players_from_history
        (⟨str "ai", str "[[PLAYER_PROFILE:" ++ name ++ str "]]" ++ rest⟩ :: h) := by
  have hall : ∀ c ∈ name, pyIsSpace c = false := by
    intro c hc
    have hok2 := hok
    rw [okTagName, Bool.and_eq_true, List.all_eq_true] at hok2
    have hcp := hok2.2 c hc
    simp only [Bool.and_eq_true, Bool.not_eq_true', decide_eq_true_eq] at hcp
    exact hcp.1.1.1
  have hne : name.isEmpty = false := by
    have hok2 := hok
    rw [okTagName, Bool.and_eq_true, Bool.not_eq_true'] at hok2
    exact hok2.1
  set content := str "[[PLAYER_PROFILE:" ++ name ++ str "]]" ++ rest with hcontent
  have hopen : openTagOT content = some (name, rest) :=
    openTagOT_literal_frame rest hok
  have hcons : ∃ c0 tail, content = c0 :: tail := by
    cases hd : content with
    | nil =>
      rw [hcontent] at hd
      exact absurd hd (by simp [str])
    | cons c0 tail => exact ⟨c0, tail, rfl⟩
  obtain ⟨c0, tail, htail⟩ := hcons
  have hfind : ∃ more, findOpenTags content = name :: more := by
    refine ⟨findOpenTagsFuel tail.length rest, ?_⟩
    rw [findOpenTags, htail]
    rw [show (c0 :: tail).length = tail.length + 1 from rfl]
    rw [findOpenTagsFuel, ← htail, hopen]
  obtain ⟨more, hmore⟩ := hfind
  rw [get_seen_players_from_history, List.foldl_cons]
  dsimp only
  rw [if_pos (by decide : roleIsAssistant (str "ai") = true)]
  apply mem_seen_foldl_of_mem
  rw [addNamesFromContent, hmore, List.foldl_cons]
  dsimp only
  rw [pyStrip_all_not_ws hall]
  rw [if_neg (by simp [hne])]
  exact mem_namesFold_of_mem more (mem_insertIfAbsent_self _ _)

/-- C7 witness: the concrete name `X` with a tail and an earlier history
message. -/
theorem C7_witness_concrete_tag :
    str "X" ∈ get_seen_players_from_history
        (⟨str "ai", str "[[PLAYER_PROFILE:" ++ str "X" ++ str "]]" ++ str " no close"⟩ ::
          [⟨str "human", str "hello"⟩]) :=
  C7_amended_open_tag_suffices (str "X") (str " no close")
    [⟨str "human", str "hello"⟩] (by decide)

/-! ### Line-structure lemmas for the stripper -/

/-- Lines produced by `splitLines` contain no newline. -/
theorem splitLines_noNL {s : Str} {l : Str} (h : l ∈ splitLines s) : '\n' ∉ l := by
  induction s generalizing l with
  | nil => simp [splitLines] at h
  | cons c cs ih =>
    rw [splitLines] at h
    by_cases hc : c = '\n'
    · rw [if_pos hc] at h
      rcases List.mem_cons.mp h with rfl | h2
      · simp
      · exact ih h2
    · rw [if_neg hc] at h
      cases hsc : splitLines cs with
      | nil =>
        rw [hsc] at h
        rcases List.mem_cons.mp h with rfl | h2
        · intro hmem
          rcases List.mem_cons.mp hmem with h3 | h3
          · exact hc h3.symm
          · simp at h3
        · simp at h2
      | cons l0 ls =>
        rw [hsc] at h
        rcases List.mem_cons.mp h with rfl | h2
        · intro hmem
          rcases List.mem_cons.mp hmem with h3 | h3
          · exact hc h3.symm
          · exact ih (show l0 ∈ splitLines cs by
              rw [hsc]; exact List.mem_cons_self _ _) h3
        · exact ih (show l ∈ splitLines cs by
            rw [hsc]; exact List.mem_cons_of_mem _ h2)

/-- `splitLines` yields the empty list only on the empty string. -/
theorem splitLines_eq_nil_iff {s : Str} : splitLines s = [] ↔ s = [] := by
  constructor
  · intro h
    cases s with
    | nil => rfl
    | cons c cs =>
      rw [splitLines] at h
      by_cases hc : c = '\n'
      · rw [if_pos hc] at h
        cases h
      · rw [if_neg hc] at h
        cases hsc : splitLines cs with
        | nil => rw [hsc] at h; cases h
        | cons l0 ls => rw [hsc] at h; cases h
  · intro h
    subst h
    rfl

/-- The first line of a nonempty string is its longest newline-free
prefix. -/
theorem splitLines_head {s : Str} (h : s ≠ []) :
    ∃ ls, splitLines s = s.takeWhile (· ≠ '\n') :: ls := by
  induction s with
  | nil => exact absurd rfl h
  | cons c cs ih =>
    by_cases hc : c = '\n'
    · subst hc
      refine ⟨splitLines cs, ?_⟩
      rw [splitLines, if_pos rfl]
      simp [List.takeWhile_cons]
    · rw [splitLines, if_neg hc]
      cases hsc : splitLines cs with
      | nil =>
        have hcs : cs = [] := splitLines_eq_nil_iff.mp hsc
        subst hcs
        exact ⟨[], by simp [List.takeWhile_cons, hc]⟩
      | cons l0 ls =>
        have hcs : cs ≠ [] := by
          intro hnil
          subst hnil
          simp [splitLines] at hsc
        obtain ⟨ls', hls'⟩ := ih hcs
        rw [hsc] at hls'
        injection hls' with h1 _
        refine ⟨ls, ?_⟩
        rw [List.takeWhile_cons, if_pos (by simpa using hc), h1]

/-- A newline-free string is a single line (when nonempty). -/
theorem splitLines_of_noNL {l : Str} (h : '\n' ∉ l) (hne : l ≠ []) :
    splitLines l = [l] := by
  induction l with
  | nil => exact absurd rfl hne
  | cons c cs ih =>
    have hc : c ≠ '\n' := fun hcc => h (hcc ▸ List.mem_cons_self _ _)
    rw [splitLines, if_neg hc]
    cases hcs : cs with
    | nil => subst hcs; rfl
    | cons d ds =>
      rw [← hcs, ih (fun hm => h (List.mem_cons_of_mem _ hm)) (by simp [hcs])]

/-- Splitting after a newline-free first line. -/
theorem splitLines_line_append {l : Str} (s : Str) (h : '\n' ∉ l) :
    splitLines (l ++ '\n' :: s) = l :: splitLines s := by
  induction l with
  | nil =>
    rw [List.nil_append, splitLines, if_pos rfl]
  | cons c cs ih =>
    have hc : c ≠ '\n' := fun hcc => h (hcc ▸ List.mem_cons_self _ _)
    rw [List.cons_append, splitLines, if_neg hc,
      ih (fun hm => h (List.mem_cons_of_mem _ hm))]

/-- Every line of a newline-joined list is one of the list's lines. -/
theorem mem_splitLines_joinNL {ls : List Str} (hnl : ∀ l ∈ ls, '\n' ∉ l)
    {m : Str} (h : m ∈ splitLines (joinNL ls)) : m ∈ ls := by
  induction ls with
  | nil => simp [joinNL, splitLines] at h
  | cons l ls ih =>
    cases ls with
    | nil =>
      rw [joinNL] at h
      by_cases hl : l = []
      · subst hl
        simp [splitLines] at h
      · rw [splitLines_of_noNL (hnl l (List.mem_cons_self _ _)) hl] at h
        rcases List.mem_cons.mp h with rfl | h2
        · exact List.mem_cons_self _ _
        · simp at h2
    | cons l2 ls2 =>
      rw [show joinNL (l :: l2 :: ls2) = l ++ '\n' :: joinNL (l2 :: ls2) from rfl,
        splitLines_line_append _ (hnl l (List.mem_cons_self _ _))] at h
      rcases List.mem_cons.mp h with rfl | h2
      · exact List.mem_cons_self _ _
      · exact List.mem_cons_of_mem _
          (ih (fun x hx => hnl x (List.mem_cons_of_mem _ hx)) h2)

/-- Joining after a cons-headed split. -/
theorem joinNL_cons_cons {c : Char} {l : Str} (ls : List Str) :
    joinNL ((c :: l) :: ls) = c :: joinNL (l :: ls) := by
  cases ls with
  | nil => rfl
  | cons l2 ls2 => rfl

/-- `joinNL` undoes `splitLines` on a string that does not end in a
newline. -/
theorem joinNL_splitLines {s : Str} (h : ∀ t, s ≠ t ++ ['\n']) :
    joinNL (splitLines s) = s := by
  induction s with
  | nil => rfl
  | cons c cs ih =>
    have htail : ∀ t, cs ≠ t ++ ['\n'] := by
      intro t ht
      exact h (c :: t) (by rw [ht]; rfl)
    by_cases hc : c = '\n'
    · subst hc
      have hcs : cs ≠ [] := by
        intro hnil
        exact h [] (by rw [hnil]; rfl)
      rw [splitLines, if_pos rfl]
      cases hsc : splitLines cs with
      | nil => exact absurd (splitLines_eq_nil_iff.mp hsc) hcs
      | cons l0 ls =>
        rw [show joinNL ([] :: l0 :: ls) = [] ++ '\n' :: joinNL (l0 :: ls) from rfl,
          ← hsc, ih htail]
        rfl
    · rw [splitLines, if_neg hc]
      cases hsc : splitLines cs with
      | nil =>
        have hcs : cs = [] := splitLines_eq_nil_iff.mp hsc
        subst hcs
        rfl
      | cons l0 ls =>
        rw [joinNL_cons_cons, ← hsc, ih htail]

/-- Splitting after a replicated-newline prefix. -/
theorem splitLines_replicate_append (k : Nat) (u : Str) :
    splitLines (List.replicate k '\n' ++ u) =
      List.replicate k [] ++ splitLines u := by
  induction k with
  | zero => simp
  | succ n ih =>
    rw [List.replicate_succ, List.cons_append, splitLines, if_pos rfl, ih,
      List.replicate_succ, List.cons_append]

/-- Characters of a line come from the split string. -/
theorem mem_of_mem_splitLines {s l : Str} {c : Char} (hl : l ∈ splitLines s)
    (hc : c ∈ l) : c ∈ s := by
  induction s generalizing l with
  | nil => simp [splitLines] at hl
  | cons d ds ih =>
    rw [splitLines] at hl
    by_cases hd : d = '\n'
    · rw [if_pos hd] at hl
      rcases List.mem_cons.mp hl with rfl | h2
      · simp at hc
      · exact List.mem_cons_of_mem _ (ih h2 hc)
    · rw [if_neg hd] at hl
      cases hds : splitLines ds with
      | nil =>
        rw [hds] at hl
        rcases List.mem_cons.mp hl with rfl | h2
        · rcases List.mem_cons.mp hc with rfl | h2
          · exact List.mem_cons_self _ _
          · simp at h2
        · simp at h2
      | cons l0 ls =>
        rw [hds] at hl
        rcases List.mem_cons.mp hl with rfl | h2
        · rcases List.mem_cons.mp hc with rfl | h2
          · exact List.mem_cons_self _ _
          · exact List.mem_cons_of_mem _ (ih (show l0 ∈ splitLines ds by
              rw [hds]; exact List.mem_cons_self _ _) h2)
        · exact List.mem_cons_of_mem _ (ih (show l ∈ splitLines ds by
            rw [hds]; exact List.mem_cons_of_mem _ h2) hc)

/-! ### Whitespace-trim lemmas -/

/-- `dropWhile` skips a fully matching prefix. -/
theorem dropWhile_append_all {p : Char → Bool} {a : Str} (x : Str)
    (h : ∀ c ∈ a, p c = true) : (a ++ x).dropWhile p = x.dropWhile p := by
  induction a with
  | nil => rfl
  | cons c cs ih =>
    rw [List.cons_append, List.dropWhile_cons, if_pos (h c (List.mem_cons_self _ _))]
    exact ih fun d hd => h d (List.mem_cons_of_mem _ hd)

/-- `dropWhile` that stops inside `x` is unchanged by appending. -/
theorem dropWhile_append_ne_nil {p : Char → Bool} {x : Str} (y : Str)
    (h : x.dropWhile p ≠ []) : (x ++ y).dropWhile p = x.dropWhile p ++ y := by
  induction x with
  | nil => exact absurd rfl h
  | cons c cs ih =>
    by_cases hc : p c = true
    · rw [List.cons_append, List.dropWhile_cons, if_pos hc, List.dropWhile_cons,
        if_pos hc]
      rw [List.dropWhile_cons, if_pos hc] at h
      exact ih h
    · have hc2 : p c = false := by
        cases hpc : p c
        · rfl
        · exact absurd hpc hc
      rw [List.cons_append, dropWhile_cons_neg _ hc2, dropWhile_cons_neg _ hc2,
        List.cons_append]

/-- `rstrip` of an all-whitespace string is empty. -/
theorem rtrimWs_all_ws {b : Str} (h : ∀ c ∈ b, pyIsSpace c = true) :
    rtrimWs b = [] := by
  induction b with
  | nil => rfl
  | cons c cs ih =>
    rw [rtrimWs, ih (fun d hd => h d (List.mem_cons_of_mem _ hd))]
    simp [h c (List.mem_cons_self _ _)]

/-- `rstrip` ignores an all-whitespace suffix. -/
theorem rtrimWs_append_ws {b : Str} (z : Str) (h : ∀ c ∈ b, pyIsSpace c = true) :
    rtrimWs (z ++ b) = rtrimWs z := by
  induction z with
  | nil =>
    rw [List.nil_append]
    exact rtrimWs_all_ws h
  | cons c cs ih =>
    rw [List.cons_append, rtrimWs, ih, rtrimWs]

/-- A string is its `rstrip` plus trailing whitespace. -/
theorem rtrimWs_decomp (z : Str) :
    ∃ w, z = rtrimWs z ++ w ∧ ∀ c ∈ w, pyIsSpace c = true := by
  induction z with
  | nil => exact ⟨[], rfl, fun c hc => absurd hc (List.not_mem_nil c)⟩
  | cons c cs ih =>
    obtain ⟨w, hw, hws⟩ := ih
    cases hr : rtrimWs cs with
    | nil =>
      have hcs : ∀ d ∈ cs, pyIsSpace d = true := by
        intro d hd
        apply hws
        rw [hw, hr, List.nil_append] at hd
        exact hd
      by_cases hc : pyIsSpace c = true
      · refine ⟨c :: cs, ?_, ?_⟩
        · have hz : rtrimWs (c :: cs) = [] := by
            rw [rtrimWs, hr]
            show (if pyIsSpace c = true then ([] : Str) else [c]) = []
            rw [if_pos hc]
          rw [hz, List.nil_append]
        · intro d hd
          rcases List.mem_cons.mp hd with rfl | hd2
          · exact hc
          · exact hcs d hd2
      · refine ⟨cs, ?_, hcs⟩
        have hz : rtrimWs (c :: cs) = [c] := by
          rw [rtrimWs, hr]
          show (if pyIsSpace c = true then ([] : Str) else [c]) = [c]
          rw [if_neg hc]
        rw [hz]
        rfl
    | cons r0 rs =>
      refine ⟨w, ?_, hws⟩
      have hz : rtrimWs (c :: cs) = c :: rtrimWs cs := by
        rw [rtrimWs, hr]
      rw [hz, List.cons_append, ← hw]

/-- `rstrip` is idempotent. -/
theorem rtrimWs_idem (z : Str) : rtrimWs (rtrimWs z) = rtrimWs z := by
  induction z with
  | nil => rfl
  | cons c cs ih =>
    cases hr : rtrimWs cs with
    | nil =>
      have h1 : rtrimWs (c :: cs) = if pyIsSpace c = true then [] else [c] := by
        rw [rtrimWs, hr]
      by_cases hc : pyIsSpace c = true
      · rw [h1, if_pos hc]
        rfl
      · rw [h1, if_neg hc]
        show rtrimWs [c] = [c]
        rw [rtrimWs]
        show (if pyIsSpace c = true then ([] : Str) else [c]) = [c]
        rw [if_neg hc]
    | cons r0 rs =>
      have h1 : rtrimWs (c :: cs) = c :: rtrimWs cs := by
        rw [rtrimWs, hr]
      rw [h1, rtrimWs, ih, hr]

/-- The last character of an `rstrip` result is not whitespace. -/
theorem rtrimWs_snoc_not_ws {z t : Str} {c : Char} (h : rtrimWs z = t ++ [c]) :
    pyIsSpace c = false := by
  induction z generalizing t with
  | nil =>
    cases t <;> simp [rtrimWs] at h
  | cons d ds ih =>
    cases hr : rtrimWs ds with
    | nil =>
      have h1 : rtrimWs (d :: ds) = if pyIsSpace d = true then [] else [d] := by
        rw [rtrimWs, hr]
      rw [h1] at h
      by_cases hd : pyIsSpace d = true
      · rw [if_pos hd] at h
        cases t <;> simp at h
      · rw [if_neg hd] at h
        cases t with
        | nil =>
          rw [List.nil_append] at h
          injection h with h1' h2'
          subst h1'
          cases hpd : pyIsSpace d
          · rfl
          · exact absurd hpd hd
        | cons x xs =>
          rw [List.cons_append] at h
          injection h with h1' h2'
          cases xs <;> simp at h2'
    | cons r0 rs =>
      have h1 : rtrimWs (d :: ds) = d :: rtrimWs ds := by
        rw [rtrimWs, hr]
      rw [h1] at h
      cases t with
      | nil =>
        rw [List.nil_append] at h
        injection h with h1' h2'
        rw [hr] at h2'
        exact absurd h2' (List.cons_ne_nil _ _)
      | cons x xs =>
        rw [List.cons_append] at h
        injection h with h1' h2'
        exact ih h2'

/-- The head of an `lstrip` result is not whitespace. -/
theorem ltrimWs_head_not_ws {z : Str} {c : Char} {r : Str}
    (h : ltrimWs z = c :: r) : pyIsSpace c = false := by
  induction z with
  | nil => simp [ltrimWs] at h
  | cons d ds ih =>
    by_cases hd : pyIsSpace d = true
    · rw [ltrimWs, List.dropWhile_cons, if_pos hd] at h
      exact ih h
    · rw [ltrimWs, List.dropWhile_cons, if_neg hd] at h
      injection h with h1 _
      subst h1
      cases hpd : pyIsSpace d
      · rfl
      · exact absurd hpd hd

/-- `strip` of a whitespace-padded string. -/
theorem pyStrip_pad {a b : Str} (m : Str) (ha : ∀ c ∈ a, pyIsSpace c = true)
    (hb : ∀ c ∈ b, pyIsSpace c = true) :
    pyStrip (a ++ m ++ b) = pyStrip m := by
  unfold pyStrip ltrimWs
  rw [List.append_assoc, dropWhile_append_all _ ha]
  by_cases hm : m.dropWhile pyIsSpace = []
  · have hmall : ∀ c ∈ m, pyIsSpace c = true := by
      intro x hx
      have := List.dropWhile_eq_nil_iff.mp hm x hx
      simpa using this
    have hmb : (m ++ b).dropWhile pyIsSpace = [] := by
      rw [List.dropWhile_eq_nil_iff]
      intro x hx
      rcases List.mem_append.mp hx with h1 | h1
      · simpa using hmall x h1
      · simpa using hb x h1
    rw [hmb, hm]
  · rw [dropWhile_append_ne_nil _ hm, rtrimWs_append_ws _ hb]

/-- The head of a nonempty `strip` result is not whitespace. -/
theorem pyStrip_head_not_ws {s : Str} {c : Char} {r : Str}
    (h : pyStrip s = c :: r) : pyIsSpace c = false := by
  obtain ⟨w, hw, _⟩ := rtrimWs_decomp (ltrimWs s)
  rw [show rtrimWs (ltrimWs s) = pyStrip s from rfl, h, List.cons_append] at hw
  exact ltrimWs_head_not_ws hw

/-- The last character of a `strip` result is not whitespace. -/
theorem pyStrip_snoc_not_ws {s t : Str} {c : Char} (h : pyStrip s = t ++ [c]) :
    pyIsSpace c = false :=
  rtrimWs_snoc_not_ws h

/-- `strip` is idempotent. -/
theorem pyStrip_idem (s : Str) : pyStrip (pyStrip s) = pyStrip s := by
  show rtrimWs (ltrimWs (rtrimWs (ltrimWs s))) = rtrimWs (ltrimWs s)
  have h1 : ltrimWs (rtrimWs (ltrimWs s)) = rtrimWs (ltrimWs s) := by
    cases hr : rtrimWs (ltrimWs s) with
    | nil => rfl
    | cons c r =>
      obtain ⟨w, hw, _⟩ := rtrimWs_decomp (ltrimWs s)
      rw [hr, List.cons_append] at hw
      have hc : pyIsSpace c = false := ltrimWs_head_not_ws hw
      show (c :: r).dropWhile pyIsSpace = c :: r
      exact dropWhile_cons_neg _ hc
  rw [h1, rtrimWs_idem]

/-- A `strip` result never ends in a newline. -/
theorem pyStrip_ne_snoc_nl (s t : Str) : pyStrip s ≠ t ++ ['\n'] := by
  intro h
  have := pyStrip_snoc_not_ws h
  simp [pyIsSpace] at this

/-! ### Newline-collapse lemmas -/

/-- `emitNL` as a replicate. -/
theorem emitNL_eq_replicate (p : Nat) :
    emitNL p = List.replicate (if 3 ≤ p then 2 else p) '\n' := by
  unfold emitNL
  by_cases h : 3 ≤ p
  · rw [if_pos h, if_pos h]
    rfl
  · rw [if_neg h, if_neg h]

/-- The collapse copies a newline-free prefix verbatim. -/
theorem collapseGo_copy {a : Str} (t : Str) (h : '\n' ∉ a) :
    collapseGo 0 (a ++ t) = a ++ collapseGo 0 t := by
  induction a with
  | nil => rfl
  | cons c cs ih =>
    have hc : c ≠ '\n' := fun hcc => h (hcc ▸ List.mem_cons_self _ _)
    rw [List.cons_append, collapseGo, if_neg hc,
      ih (fun hm => h (List.mem_cons_of_mem _ hm))]
    rfl

/-- The collapse of a newline-free string is that string. -/
theorem collapseGo_of_noNL {a : Str} (h : '\n' ∉ a) : collapseGo 0 a = a := by
  have h2 := collapseGo_copy [] h
  rw [List.append_nil] at h2
  rw [h2, show collapseGo 0 ([] : Str) = [] from rfl, List.append_nil]

/-- The collapse absorbs leading newlines into the pending count. -/
theorem collapseGo_replicate (k : Nat) (p : Nat) (u : Str) :
    collapseGo p (List.replicate k '\n' ++ u) = collapseGo (p + k) u := by
  induction k generalizing p with
  | zero => rfl
  | succ n ih =>
    rw [List.replicate_succ, List.cons_append, collapseGo, if_pos rfl, ih]
    congr 1
    omega

/-- The collapse flushes its pending run before a non-newline head (or the
end of input). -/
theorem collapseGo_flush (p : Nat) {u : Str}
    (h : u = [] ∨ ∃ c u2, u = c :: u2 ∧ c ≠ '\n') :
    collapseGo p u = emitNL p ++ collapseGo 0 u := by
  rcases h with rfl | ⟨c, u2, rfl, hc⟩
  · show emitNL p = emitNL p ++ emitNL 0
    rw [show emitNL 0 = [] from rfl, List.append_nil]
  · rw [collapseGo, if_neg hc, collapseGo, if_neg hc,
      show emitNL 0 = [] from rfl, List.nil_append]

/-- A `dropWhile` result's head fails the predicate. -/
theorem dropWhile_head_false {p : Char → Bool} : ∀ {z : Str} {c : Char} {r : Str},
    z.dropWhile p = c :: r → p c = false := by
  intro z
  induction z with
  | nil =>
    intro c r h
    simp at h
  | cons d ds ih =>
    intro c r h
    by_cases hd : p d = true
    · rw [List.dropWhile_cons, if_pos hd] at h
      exact ih h
    · have hd2 : p d = false := by
        cases hx : p d
        · rfl
        · exact absurd hx hd
      rw [dropWhile_cons_neg _ hd2] at h
      injection h with h1 _
      subst h1
      exact hd2

/-- `noTripleB` passes to a suffix. -/
theorem noTripleB_suffix {a b : Str} (h : noTripleB (a ++ b) = true) :
    noTripleB b = true := by
  induction a with
  | nil => exact h
  | cons c cs ih =>
    rw [List.cons_append, noTripleB, Bool.and_eq_true] at h
    exact ih h.2

/-- `startsNN` survives an append. -/
theorem startsNN_append {a : Str} (b : Str) (h : startsNN a = true) :
    startsNN (a ++ b) = true := by
  cases a with
  | nil => simp [startsNN] at h
  | cons c cs =>
    cases cs with
    | nil => simp [startsNN] at h
    | cons d ds =>
      rw [List.cons_append, List.cons_append]
      rw [startsNN] at h ⊢
      exact h

/-- `startsNN` fails on a non-newline head. -/
theorem startsNN_cons_ne {c : Char} (X : Str) (hc : c ≠ '\n') :
    startsNN (c :: X) = false := by
  cases X with
  | nil => rfl
  | cons d ds => simp [startsNN, hc]

/-- `noTripleB` passes to a prefix. -/
theorem noTripleB_take {a b : Str} (h : noTripleB (a ++ b) = true) :
    noTripleB a = true := by
  induction a with
  | nil => rfl
  | cons c cs ih =>
    rw [List.cons_append, noTripleB, Bool.and_eq_true] at h
    obtain ⟨h1, h2⟩ := h
    rw [noTripleB, Bool.and_eq_true]
    refine ⟨?_, ih h2⟩
    by_cases hsn : startsNN cs = true
    · rw [startsNN_append b hsn, Bool.and_true] at h1
      rw [hsn, Bool.and_true]
      exact h1
    · have hsn2 : startsNN cs = false := by
        cases hx : startsNN cs
        · rfl
        · exact absurd hx hsn
      rw [hsn2, Bool.and_false]
      rfl

/-- Gluing a short newline run, a non-newline character and a
triple-free tail stays triple-free. -/
theorem noTripleB_glue {c : Char} {X : Str} (k : Nat) (hk : k ≤ 2)
    (hc : c ≠ '\n') (hX : noTripleB X = true) :
    noTripleB (List.replicate k '\n' ++ c :: X) = true := by
  have hcX : noTripleB (c :: X) = true := by
    rw [noTripleB, Bool.and_eq_true]
    refine ⟨?_, hX⟩
    simp [hc]
  interval_cases k
  · exact hcX
  · rw [show List.replicate 1 '\n' ++ c :: X = '\n' :: c :: X from rfl,
      noTripleB, Bool.and_eq_true]
    refine ⟨?_, hcX⟩
    rw [startsNN_cons_ne X hc, Bool.and_false]
    rfl
  · rw [show List.replicate 2 '\n' ++ c :: X = '\n' :: '\n' :: c :: X from rfl,
      noTripleB, Bool.and_eq_true]
    constructor
    · rw [show startsNN ('\n' :: c :: X) = ((('\n' : Char) = '\n') && (c = '\n')) from rfl]
      simp [hc]
    · rw [noTripleB, Bool.and_eq_true]
      refine ⟨?_, hcX⟩
      rw [startsNN_cons_ne X hc, Bool.and_false]
      rfl

/-- The collapse never outputs three consecutive newlines. -/
theorem noTripleB_collapseGo (s : Str) : ∀ p, noTripleB (collapseGo p s) = true := by
  induction s with
  | nil =>
    intro p
    rw [collapseGo, emitNL_eq_replicate]
    by_cases h : 3 ≤ p
    · rw [if_pos h]
      rfl
    · rw [if_neg h]
      interval_cases p <;> rfl
  | cons c cs ih =>
    intro p
    by_cases hc : c = '\n'
    · subst hc
      rw [collapseGo, if_pos rfl]
      exact ih (p + 1)
    · rw [collapseGo, if_neg hc, emitNL_eq_replicate]
      refine noTripleB_glue _ ?_ hc (ih 0)
      by_cases h3 : 3 ≤ p
      · rw [if_pos h3]
      · rw [if_neg h3]
        omega

/-- A triple-free string is a fixed point of the collapse. -/
theorem collapseGo_of_noTriple : ∀ (s : Str) (p : Nat), p ≤ 2 →
    noTripleB (List.replicate p '\n' ++ s) = true →
    collapseGo p s = List.replicate p '\n' ++ s := by
  intro s
  induction s with
  | nil =>
    intro p hp _
    rw [collapseGo, emitNL_eq_replicate, if_neg (by omega), List.append_nil]
  | cons c cs ih =>
    intro p hp h
    by_cases hc : c = '\n'
    · subst hc
      have hrepl : List.replicate p '\n' ++ '\n' :: cs =
          List.replicate (p + 1) '\n' ++ cs := by
        rw [List.replicate_succ', List.append_assoc]
        rfl
      rw [collapseGo, if_pos rfl, hrepl]
      rw [hrepl] at h
      have hp1 : p + 1 ≤ 2 := by
        by_contra hcon
        have hp2 : p = 2 := by omega
        subst hp2
        rw [show List.replicate 3 '\n' ++ cs = '\n' :: '\n' :: '\n' :: cs from rfl,
          noTripleB] at h
        simp [startsNN] at h
      exact ih (p + 1) hp1 h
    · rw [collapseGo, if_neg hc, emitNL_eq_replicate, if_neg (by omega)]
      have hcs : noTripleB cs = true := by
        have hsh : List.replicate p '\n' ++ c :: cs =
            (List.replicate p '\n' ++ [c]) ++ cs := by
          rw [List.append_assoc]
          rfl
        rw [hsh] at h
        exact noTripleB_suffix h
      have h0 : collapseGo 0 cs = cs := by
        have := ih 0 (by omega) (by simpa using hcs)
        simpa using this
      rw [h0]

/-- Fixed point of `collapseNL` on triple-free strings. -/
theorem collapseNL_of_noTriple {s : Str} (h : noTripleB s = true) :
    collapseNL s = s := by
  have := collapseGo_of_noTriple s 0 (by omega) (by simpa using h)
  simpa using this

/-- Every line of a collapsed string is blank or a line of the
original. -/
theorem mem_splitLines_collapseGo :
    ∀ (n : Nat) (s : Str), s.length ≤ n → ∀ m ∈ splitLines (collapseGo 0 s),
      m = [] ∨ m ∈ splitLines s := by
  intro n
  induction n with
  | zero =>
    intro s hs m hm
    have hse : s = [] := by
      cases s with
      | nil => rfl
      | cons c cs => simp at hs
    subst hse
    rw [show splitLines (collapseGo 0 ([] : Str)) = [] from rfl] at hm
    exact absurd hm (List.not_mem_nil m)
  | succ n ih =>
    intro s hs m hm
    by_cases hse : s = []
    · subst hse
      rw [show splitLines (collapseGo 0 ([] : Str)) = [] from rfl] at hm
      exact absurd hm (List.not_mem_nil m)
    cases hdrop : s.dropWhile (· ≠ '\n') with
    | nil =>
      have hnl : '\n' ∉ s := by
        intro hmem
        have := List.dropWhile_eq_nil_iff.mp hdrop '\n' hmem
        simp at this
      rw [collapseGo_of_noNL hnl] at hm
      exact Or.inr hm
    | cons d r2 =>
      have hd : d = '\n' := by
        have h2 := dropWhile_head_false hdrop
        simpa using h2
      subst hd
      have hanl : '\n' ∉ s.takeWhile (· ≠ '\n') := by
        intro hmem
        have := List.mem_takeWhile_imp hmem
        simp at this
      have hsr : s = s.takeWhile (· ≠ '\n') ++ '\n' :: r2 := by
        conv_lhs => rw [← List.takeWhile_append_dropWhile (fun c => decide (c ≠ '\n')) s]
        rw [hdrop]
      have htk : r2.takeWhile (· = '\n') =
          List.replicate (r2.takeWhile (· = '\n')).length '\n' := by
        apply List.eq_replicate_of_mem
        intro x hx
        simpa using List.mem_takeWhile_imp hx
      have hu : r2 = List.replicate (r2.takeWhile (· = '\n')).length '\n' ++
          r2.dropWhile (· = '\n') := by
        conv_lhs => rw [← List.takeWhile_append_dropWhile (fun c => decide (c = '\n')) r2]
        rw [← htk]
      have hs2 : s = s.takeWhile (· ≠ '\n') ++ '\n' ::
          (List.replicate (r2.takeWhile (· = '\n')).length '\n' ++
            r2.dropWhile (· = '\n')) := by
        conv_lhs => rw [hsr]
        rw [← hu]
      have huns : r2.dropWhile (· = '\n') = [] ∨
          ∃ c u2, r2.dropWhile (· = '\n') = c :: u2 ∧ c ≠ '\n' := by
        cases hcu : r2.dropWhile (· = '\n') with
        | nil => exact Or.inl rfl
        | cons c u2 =>
          refine Or.inr ⟨c, u2, rfl, ?_⟩
          have h3 := dropWhile_head_false hcu
          simpa using h3
      have hlen : (r2.dropWhile (· = '\n')).length ≤ n := by
        have hlu : (r2.dropWhile (· = '\n')).length ≤ r2.length := by
          conv_rhs => rw [← List.takeWhile_append_dropWhile (fun c => decide (c = '\n')) r2]
          rw [List.length_append]
          omega
        have hls := congrArg List.length hsr
        simp [List.length_append] at hls
        omega
      have hcoll : collapseGo 0 s = (s.takeWhile (· ≠ '\n') ++
          emitNL (1 + (r2.takeWhile (· = '\n')).length)) ++
          collapseGo 0 (r2.dropWhile (· = '\n')) := by
        conv_lhs => rw [hs2]
        rw [collapseGo_copy _ hanl]
        rw [show ('\n' :: (List.replicate (r2.takeWhile (· = '\n')).length '\n' ++
            r2.dropWhile (· = '\n'))) =
          (List.replicate (1 + (r2.takeWhile (· = '\n')).length) '\n' ++
            r2.dropWhile (· = '\n')) from by
          rw [show 1 + (r2.takeWhile (· = '\n')).length =
            (r2.takeWhile (· = '\n')).length + 1 from by omega, List.replicate_succ,
            List.cons_append]]
        rw [collapseGo_replicate, show 0 + (1 + (r2.takeWhile (· = '\n')).length) =
          1 + (r2.takeWhile (· = '\n')).length from by omega,
          collapseGo_flush _ huns, List.append_assoc]
      have hk2 : ∃ k3, emitNL (1 + (r2.takeWhile (· = '\n')).length) =
          '\n' :: List.replicate k3 '\n' := by
        rw [emitNL_eq_replicate]
        by_cases h3 : 3 ≤ 1 + (r2.takeWhile (· = '\n')).length
        · rw [if_pos h3]
          exact ⟨1, rfl⟩
        · rw [if_neg h3]
          refine ⟨(r2.takeWhile (· = '\n')).length, ?_⟩
          rw [show 1 + (r2.takeWhile (· = '\n')).length =
            (r2.takeWhile (· = '\n')).length + 1 from by omega]
          rw [List.replicate_succ]
      obtain ⟨k3, hk3⟩ := hk2
      have hsl : splitLines s = s.takeWhile (· ≠ '\n') ::
          (List.replicate (r2.takeWhile (· = '\n')).length [] ++
            splitLines (r2.dropWhile (· = '\n'))) := by
        conv_lhs => rw [hs2]
        rw [splitLines_line_append _ hanl, splitLines_replicate_append]
      rw [hcoll, hk3, List.append_assoc, List.cons_append,
        splitLines_line_append _ hanl, splitLines_replicate_append] at hm
      rcases List.mem_cons.mp hm with rfl | hm2
      · right
        rw [hsl]
        exact List.mem_cons_self _ _
      · rcases List.mem_append.mp hm2 with hm3 | hm3
        · exact Or.inl (List.eq_of_mem_replicate hm3)
        · rcases ih _ hlen m hm3 with h0 | hmem
          · exact Or.inl h0
          · right
            rw [hsl]
            exact List.mem_cons_of_mem _ (List.mem_append.mpr (Or.inr hmem))

/-! ### Edge-trim line lemmas -/

/-- Images of members under `modifyLast`. -/
theorem mem_modifyLast {f : Str → Str} : ∀ {ls : List Str} {m : Str}, m ∈ ls →
    ∃ l ∈ modifyLast f ls, l = m ∨ l = f m := by
  intro ls
  induction ls with
  | nil =>
    intro m hm
    exact absurd hm (List.not_mem_nil m)
  | cons x xs ih =>
    intro m hm
    cases xs with
    | nil =>
      rcases List.mem_cons.mp hm with rfl | hm2
      · exact ⟨f m, List.mem_cons_self _ _, Or.inr rfl⟩
      · exact absurd hm2 (List.not_mem_nil m)
    | cons y ys =>
      rcases List.mem_cons.mp hm with rfl | hm2
      · exact ⟨m, List.mem_cons_self _ _, Or.inl rfl⟩
      · obtain ⟨l, hl, hor⟩ := ih hm2
        exact ⟨l, List.mem_cons_of_mem _ hl, hor⟩

/-- Splitting across an all-whitespace suffix: the last line may be
extended by whitespace and all-whitespace lines may follow. -/
theorem splitLines_append_ws {w : Str} (u : Str)
    (hw : ∀ c ∈ w, pyIsSpace c = true) :
    ∃ b ex, (∀ c ∈ b, pyIsSpace c = true) ∧
      (∀ e ∈ ex, ∀ c ∈ e, pyIsSpace c = true) ∧
      splitLines (u ++ w) = modifyLast (fun x => x ++ b) (splitLines u) ++ ex := by
  induction u with
  | nil =>
    refine ⟨[], splitLines w, fun c hc => absurd hc (List.not_mem_nil c), ?_, ?_⟩
    · intro e he c hc
      exact hw c (mem_of_mem_splitLines he hc)
    · rw [List.nil_append]
      rfl
  | cons d ds ih =>
    obtain ⟨b, ex, hb, hex, heq⟩ := ih
    by_cases hd : d = '\n'
    · subst hd
      cases hds : splitLines ds with
      | nil =>
        have hds0 : ds = [] := splitLines_eq_nil_iff.mp hds
        subst hds0
        refine ⟨[], splitLines w, fun c hc => absurd hc (List.not_mem_nil c), ?_, ?_⟩
        · intro e he c hc
          exact hw c (mem_of_mem_splitLines he hc)
        · rfl
      | cons l0 ls =>
        refine ⟨b, ex, hb, hex, ?_⟩
        have hLHS : splitLines (('\n' :: ds) ++ w) = [] :: splitLines (ds ++ w) := by
          rw [List.cons_append, splitLines, if_pos rfl]
        have hRHS : splitLines ('\n' :: ds) = [] :: splitLines ds := by
          rw [splitLines, if_pos rfl]
        rw [hLHS, hRHS, heq, hds]
        rfl
    · cases hds : splitLines ds with
      | nil =>
        have hds0 : ds = [] := splitLines_eq_nil_iff.mp hds
        subst hds0
        cases hsw : splitLines w with
        | nil =>
          have hw0 : w = [] := splitLines_eq_nil_iff.mp hsw
          subst hw0
          refine ⟨[], [], fun c hc => absurd hc (List.not_mem_nil c),
            fun e he => absurd he (List.not_mem_nil e), ?_⟩
          have h2 : splitLines [d] = [[d]] := by
            rw [splitLines, if_neg hd]
            rfl
          have h1 : splitLines ([d] ++ ([] : Str)) = [[d]] := by
            rw [List.append_nil, h2]
          rw [h1, h2]
          rfl
        | cons m0 ms =>
          refine ⟨m0, ms, ?_, ?_, ?_⟩
          · intro c hc
            refine hw c (mem_of_mem_splitLines ?_ hc)
            rw [hsw]
            exact List.mem_cons_self _ _
          · intro e he c hc
            refine hw c (mem_of_mem_splitLines ?_ hc)
            rw [hsw]
            exact List.mem_cons_of_mem _ he
          · have h1 : splitLines ([d] ++ w) = (d :: m0) :: ms := by
              rw [List.cons_append, List.nil_append, splitLines, if_neg hd, hsw]
            have h2 : splitLines [d] = [[d]] := by
              rw [splitLines, if_neg hd]
              rfl
            rw [h1, h2]
            rfl
      | cons l0 ls =>
        cases ls with
        | nil =>
          refine ⟨b, ex, hb, hex, ?_⟩
          have h1 : splitLines (d :: ds) = [d :: l0] := by
            rw [splitLines, if_neg hd, hds]
          have h2 : splitLines ((d :: ds) ++ w) = (d :: (l0 ++ b)) :: ex := by
            rw [List.cons_append, splitLines, if_neg hd, heq, hds]
            rfl
          rw [h1, h2]
          rfl
        | cons l1 ls2 =>
          refine ⟨b, ex, hb, hex, ?_⟩
          have h1 : splitLines (d :: ds) = (d :: l0) :: l1 :: ls2 := by
            rw [splitLines, if_neg hd, hds]
          have h2 : splitLines ((d :: ds) ++ w) =
              (d :: l0) :: (modifyLast (fun x => x ++ b) (l1 :: ls2) ++ ex) := by
            rw [List.cons_append, splitLines, if_neg hd, heq, hds]
            rfl
          rw [h1, h2]
          rfl

/-- Lines of `lstrip` are left-padded lines of the original. -/
theorem mem_splitLines_ltrim {v m : Str} (hm : m ∈ splitLines (ltrimWs v)) :
    ∃ l ∈ splitLines v, ∃ a, (∀ c ∈ a, pyIsSpace c = true) ∧ l = a ++ m := by
  induction v with
  | nil =>
    rw [show ltrimWs ([] : Str) = [] from rfl] at hm
    exact absurd hm (List.not_mem_nil m)
  | cons c cs ih =>
    by_cases hc : pyIsSpace c = true
    · rw [show ltrimWs (c :: cs) = ltrimWs cs from by
        show (c :: cs).dropWhile pyIsSpace = cs.dropWhile pyIsSpace
        rw [List.dropWhile_cons, if_pos hc]] at hm
      obtain ⟨l, hl, a, ha, hla⟩ := ih hm
      by_cases hcn : c = '\n'
      · subst hcn
        refine ⟨l, ?_, a, ha, hla⟩
        rw [splitLines, if_pos rfl]
        exact List.mem_cons_of_mem _ hl
      · cases hcs : splitLines cs with
        | nil =>
          rw [hcs] at hl
          exact absurd hl (List.not_mem_nil l)
        | cons l0 ls =>
          rw [hcs] at hl
          rcases List.mem_cons.mp hl with rfl | hl2
          · refine ⟨c :: (a ++ m), ?_, c :: a, ?_, ?_⟩
            · rw [splitLines, if_neg hcn, hcs, ← hla]
              exact List.mem_cons_self _ _
            · intro x hx
              rcases List.mem_cons.mp hx with rfl | hx2
              · exact hc
              · exact ha x hx2
            · rw [List.cons_append]
          · refine ⟨l, ?_, a, ha, hla⟩
            rw [splitLines, if_neg hcn, hcs]
            exact List.mem_cons_of_mem _ hl2
    · have hc2 : pyIsSpace c = false := by
        cases hx : pyIsSpace c
        · rfl
        · exact absurd hx hc
      rw [show ltrimWs (c :: cs) = c :: cs from dropWhile_cons_neg _ hc2] at hm
      exact ⟨m, hm, [], fun x hx => absurd hx (List.not_mem_nil x), rfl⟩

/-- Lines of `strip` are whitespace-padding reductions of lines of the
original. -/
theorem mem_splitLines_pyStrip {v m : Str} (hm : m ∈ splitLines (pyStrip v)) :
    ∃ l ∈ splitLines v, edgeVar m l := by
  obtain ⟨w, hw, hws⟩ := rtrimWs_decomp (ltrimWs v)
  have hw2 : ltrimWs v = pyStrip v ++ w := hw
  obtain ⟨b, ex, hb, hex, heq⟩ := splitLines_append_ws (pyStrip v) hws
  obtain ⟨l1, hl1, hor⟩ := @mem_modifyLast (fun x => x ++ b) (splitLines (pyStrip v)) m hm
  have hl1' : l1 ∈ splitLines (ltrimWs v) := by
    rw [hw2, heq]
    exact List.mem_append.mpr (Or.inl hl1)
  obtain ⟨l, hl, a, ha, hla⟩ := mem_splitLines_ltrim hl1'
  refine ⟨l, hl, ?_⟩
  rcases hor with rfl | rfl
  · refine ⟨a, [], ?_, List.all_eq_true.mpr ha, rfl⟩
    rw [hla, List.append_nil]
  · refine ⟨a, b, ?_, List.all_eq_true.mpr ha, List.all_eq_true.mpr hb⟩
    rw [hla, List.append_assoc]

/-! ### Classifier stability under whitespace padding -/

/-- Whitespace characters are fixed by the lower-casing. -/
theorem charLower_of_ws {d : Char} (h : pyIsSpace d = true) : charLower d = d := by
  unfold pyIsSpace at h
  simp only [Bool.or_eq_true, decide_eq_true_eq] at h
  rcases h with ((((h | h) | h) | h) | h) | h <;> subst h <;> decide

/-- Peeling one character of a case-insensitive literal match. -/
theorem stripPrefixCI_cons_head {p : Char} {ps z r : Str}
    (h : stripPrefixCI (p :: ps) z = some r) :
    ∃ d t, z = d :: t ∧ charLower d = p ∧ stripPrefixCI ps t = some r := by
  cases z with
  | nil => simp [stripPrefixCI] at h
  | cons d t =>
    rw [stripPrefixCI] at h
    by_cases hd : charLower d = p
    · rw [if_pos hd] at h
      exact ⟨d, t, rfl, hd, h⟩
    · rw [if_neg hd] at h
      cases h

/-- A literal whose first character is not whitespace pins a non-whitespace
head of the input. -/
theorem stripPrefixCI_head_not_ws {p : Char} {ps z r : Str}
    (h : stripPrefixCI (p :: ps) z = some r) (hp : pyIsSpace p = false) :
    ∃ d t, z = d :: t ∧ pyIsSpace d = false := by
  obtain ⟨d, t, rfl, hd, _⟩ := stripPrefixCI_cons_head h
  refine ⟨d, t, rfl, ?_⟩
  cases hx : pyIsSpace d
  · rfl
  · rw [charLower_of_ws hx] at hd
    subst hd
    rw [hx] at hp
    cases hp

/-- A case-insensitive literal match only looks at its own span. -/
theorem stripPrefixCI_some_append {p z r : Str} (y : Str)
    (h : stripPrefixCI p z = some r) :
    stripPrefixCI p (z ++ y) = some (r ++ y) := by
  induction p generalizing z with
  | nil =>
    have hz : z = r := by
      have h2 : some z = some r := h
      injection h2
    subst hz
    rfl
  | cons a ps ih =>
    obtain ⟨d, t, rfl, hd, h2⟩ := stripPrefixCI_cons_head h
    rw [List.cons_append, stripPrefixCI, if_pos hd]
    exact ih h2

/-- `dropWhile` that stops at a concrete head is unchanged by appending. -/
theorem dropWhile_append_cons {p : Char → Bool} {z : Str} {c : Char} {t : Str}
    (y : Str) (h : z.dropWhile p = c :: t) :
    (z ++ y).dropWhile p = c :: (t ++ y) := by
  have hne : z.dropWhile p ≠ [] := by
    rw [h]
    exact List.cons_ne_nil _ _
  rw [dropWhile_append_ne_nil y hne, h, List.cons_append]

/-- The `\*\*:` probe succeeds with a nonempty tail. -/
theorem fcProbe_shape {c : Str} (h : fcProbe c = true) :
    ∃ rest, stripPrefixCI (str "**:") c = some rest ∧ rest ≠ [] := by
  unfold fcProbe at h
  cases hsp : stripPrefixCI (str "**:") c with
  | none =>
    rw [hsp] at h
    simp at h
  | some rest =>
    rw [hsp] at h
    have h2 : (!rest.isEmpty) = true := h
    refine ⟨rest, rfl, ?_⟩
    intro h0
    subst h0
    simp at h2

/-- The probe is append-stable. -/
theorem fcProbe_append {c : Str} (y : Str) (h : fcProbe c = true) :
    fcProbe (c ++ y) = true := by
  obtain ⟨rest, hsp, hne⟩ := fcProbe_shape h
  unfold fcProbe
  rw [stripPrefixCI_some_append y hsp]
  show (!(rest ++ y).isEmpty) = true
  cases rest with
  | nil => exact absurd rfl hne
  | cons a t => rfl

/-- A probe-accepted candidate starts with a non-whitespace character. -/
theorem fcProbe_head {c : Str} (h : fcProbe c = true) :
    ∃ c0 t, c = c0 :: t ∧ pyIsSpace c0 = false := by
  obtain ⟨rest, hsp, _⟩ := fcProbe_shape h
  have hsp2 : stripPrefixCI ('*' :: str "*:") c = some rest := hsp
  exact stripPrefixCI_head_not_ws hsp2 (by decide)

/-- `sOpt` on the empty string. -/
theorem sOpt_nil : sOpt [] = [[]] := rfl

/-- `sOpt` on a cons whose head lower-cases to `s`. -/
theorem sOpt_cons_pos {c0 : Char} (b2 : Str) (h : charLower c0 = 's') :
    sOpt (c0 :: b2) = [c0 :: b2, b2] := by
  show (c0 :: b2) :: (if charLower c0 = 's' then [b2] else []) = [c0 :: b2, b2]
  rw [if_pos h]

/-- `sOpt` on a cons whose head does not lower-case to `s`. -/
theorem sOpt_cons_neg {c0 : Char} (b2 : Str) (h : ¬charLower c0 = 's') :
    sOpt (c0 :: b2) = [c0 :: b2] := by
  show (c0 :: b2) :: (if charLower c0 = 's' then [b2] else []) = [c0 :: b2]
  rw [if_neg h]

/-- Members of `sOpt` are append-stable. -/
theorem sOpt_append {b c : Str} (y : Str) (h : c ∈ sOpt b) :
    c ++ y ∈ sOpt (b ++ y) := by
  cases b with
  | nil =>
    rw [sOpt_nil] at h
    rcases List.mem_cons.mp h with rfl | h2
    · rw [List.nil_append]
      exact List.mem_cons_self _ _
    · exact absurd h2 (List.not_mem_nil c)
  | cons c0 b2 =>
    by_cases hc0 : charLower c0 = 's'
    · rw [sOpt_cons_pos _ hc0] at h
      rw [List.cons_append, sOpt_cons_pos _ hc0]
      rcases List.mem_cons.mp h with rfl | h2
      · rw [List.cons_append]
        exact List.mem_cons_self _ _
      · rcases List.mem_cons.mp h2 with rfl | h3
        · exact List.mem_cons_of_mem _ (List.mem_cons_self _ _)
        · exact absurd h3 (List.not_mem_nil c)
    · rw [sOpt_cons_neg _ hc0] at h
      rw [List.cons_append, sOpt_cons_neg _ hc0]
      rcases List.mem_cons.mp h with rfl | h2
      · rw [List.cons_append]
        exact List.mem_cons_self _ _
      · exact absurd h2 (List.not_mem_nil c)

/-- Members of the age-variant candidate list are append-stable, provided
the member has a non-whitespace head. -/
theorem mlAgeCands_append {x c : Str} (y : Str) (h : c ∈ mlAgeCands x)
    (hstar : ∃ c0 t, c = c0 :: t ∧ pyIsSpace c0 = false) :
    c ++ y ∈ mlAgeCands (x ++ y) := by
  simp only [mlAgeCands] at h ⊢
  rcases List.mem_cons.mp h with rfl | h2
  · exact List.mem_cons_self _ _
  rcases List.mem_cons.mp h2 with heq | h3
  · obtain ⟨c0, t, rfl, hc0⟩ := hstar
    refine List.mem_cons_of_mem _ ?_
    rw [dropWhile_append_cons y heq.symm, List.cons_append]
    exact List.mem_cons_self _ _
  rcases List.mem_append.mp h3 with h4 | h4
  · split at h4
    · next a heqa =>
      split at h4
      · next b heqb =>
        split at h4
        · next c2 heqc =>
          have hca : c = c2 := by
            rcases List.mem_cons.mp h4 with rfl | hx
            · rfl
            · exact absurd hx (List.not_mem_nil c)
          obtain ⟨d1, t1, hx1, _⟩ := stripPrefixCI_head_not_ws
            (show stripPrefixCI ('(' :: str "as") (x.dropWhile pyIsSpace) = some a
              from heqa) (by decide)
          have h5y : stripPrefixCI (str "(as") ((x ++ y).dropWhile pyIsSpace)
              = some (a ++ y) := by
            rw [dropWhile_append_cons y hx1, ← List.cons_append, ← hx1]
            exact stripPrefixCI_some_append y heqa
          obtain ⟨d2, t2, hx2, _⟩ := stripPrefixCI_head_not_ws
            (show stripPrefixCI ('o' :: str "f") (a.dropWhile pyIsSpace) = some b
              from heqb) (by decide)
          have h6y : stripPrefixCI (str "of") ((a ++ y).dropWhile pyIsSpace)
              = some (b ++ y) := by
            rw [dropWhile_append_cons y hx2, ← List.cons_append, ← hx2]
            exact stripPrefixCI_some_append y heqb
          obtain ⟨d3, t3, hx3, _⟩ := stripPrefixCI_head_not_ws
            (show stripPrefixCI ('2' :: str "025)") (b.dropWhile pyIsSpace) = some c2
              from heqc) (by decide)
          have h7y : stripPrefixCI (str "2025)") ((b ++ y).dropWhile pyIsSpace)
              = some (c2 ++ y) := by
            rw [dropWhile_append_cons y hx3, ← List.cons_append, ← hx3]
            exact stripPrefixCI_some_append y heqc
          refine List.mem_cons_of_mem _ (List.mem_cons_of_mem _
            (List.mem_append.mpr (Or.inl ?_)))
          split
          · next a2 heqa2 =>
            rw [h5y] at heqa2
            injection heqa2 with ha2
            subst ha2
            split
            · next b2 heqb2 =>
              rw [h6y] at heqb2
              injection heqb2 with hb2
              subst hb2
              split
              · next c3 heqc2 =>
                rw [h7y] at heqc2
                injection heqc2 with hc3
                subst hc3
                rw [hca]
                exact List.mem_cons_self _ _
              · next heqc2 =>
                rw [h7y] at heqc2
                exact Option.noConfusion heqc2
            · next heqb2 =>
              rw [h6y] at heqb2
              exact Option.noConfusion heqb2
          · next heqa2 =>
            rw [h5y] at heqa2
            exact Option.noConfusion heqa2
        · next heqc =>
          exact absurd h4 (List.not_mem_nil c)
      · next heqb =>
        exact absurd h4 (List.not_mem_nil c)
    · next heqa =>
      exact absurd h4 (List.not_mem_nil c)
  · split at h4
    · next a heqa =>
      have hca : c = a := by
        rcases List.mem_cons.mp h4 with rfl | hx
        · rfl
        · exact absurd hx (List.not_mem_nil c)
      obtain ⟨d1, t1, hx1, _⟩ := stripPrefixCI_head_not_ws
        (show stripPrefixCI ('(' :: str "2025)") (x.dropWhile pyIsSpace) = some a
          from heqa) (by decide)
      have h5y : stripPrefixCI (str "(2025)") ((x ++ y).dropWhile pyIsSpace)
          = some (a ++ y) := by
        rw [dropWhile_append_cons y hx1, ← List.cons_append, ← hx1]
        exact stripPrefixCI_some_append y heqa
      refine List.mem_cons_of_mem _ (List.mem_cons_of_mem _
        (List.mem_append.mpr (Or.inr ?_)))
      split
      · next a2 heqa2 =>
        rw [h5y] at heqa2
        injection heqa2 with ha2
        subst ha2
        rw [hca]
        exact List.mem_cons_self _ _
      · next heqa2 =>
        rw [h5y] at heqa2
        exact Option.noConfusion heqa2
    · next heqa =>
      exact absurd h4 (List.not_mem_nil c)

/-- Members of the meta-field candidate list are append-stable, provided
the member has a non-whitespace head. -/
theorem fieldCands_append {x c : Str} (y : Str) (h : c ∈ fieldCands x)
    (hstar : ∃ c0 t, c = c0 :: t ∧ pyIsSpace c0 = false) :
    c ++ y ∈ fieldCands (x ++ y) := by
  unfold fieldCands at h ⊢
  rcases List.mem_append.mp h with h1 | hE
  rotate_left
  · -- role
    refine List.mem_append.mpr (Or.inr ?_)
    split at hE
    · next a heqa =>
      have hEy : stripPrefixCI (str "role") (x ++ y) = some (a ++ y) :=
        stripPrefixCI_some_append y heqa
      split
      · next a2 heqa2 =>
        rw [hEy] at heqa2
        injection heqa2 with ha2
        subst ha2
        exact sOpt_append y hE
      · next heqa2 =>
        rw [hEy] at heqa2
        exact Option.noConfusion heqa2
    · next heqa =>
      exact absurd hE (List.not_mem_nil c)
  rcases List.mem_append.mp h1 with h2 | hD
  rotate_left
  · -- secondary role(s)
    refine List.mem_append.mpr (Or.inl (List.mem_append.mpr (Or.inr ?_)))
    split at hD
    · next a heqa =>
      split at hD
      · next b heqb =>
        have hDy : stripPrefixCI (str "secondary") (x ++ y) = some (a ++ y) :=
          stripPrefixCI_some_append y heqa
        obtain ⟨d2, t2, hx2, _⟩ := stripPrefixCI_head_not_ws
          (show stripPrefixCI ('r' :: str "ole") (a.dropWhile pyIsSpace) = some b
            from heqb) (by decide)
        have hDy2 : stripPrefixCI (str "role") ((a ++ y).dropWhile pyIsSpace)
            = some (b ++ y) := by
          rw [dropWhile_append_cons y hx2, ← List.cons_append, ← hx2]
          exact stripPrefixCI_some_append y heqb
        split
        · next a2 heqa2 =>
          rw [hDy] at heqa2
          injection heqa2 with ha2
          subst ha2
          split
          · next b2 heqb2 =>
            rw [hDy2] at heqb2
            injection heqb2 with hb2
            subst hb2
            exact sOpt_append y hD
          · next heqb2 =>
            rw [hDy2] at heqb2
            exact Option.noConfusion heqb2
        · next heqa2 =>
          rw [hDy] at heqa2
          exact Option.noConfusion heqa2
      · next heqb =>
        exact absurd hD (List.not_mem_nil c)
    · next heqa =>
      exact absurd hD (List.not_mem_nil c)
  rcases List.mem_append.mp h2 with h3 | hC
  rotate_left
  · -- primary role
    refine List.mem_append.mpr (Or.inl (List.mem_append.mpr (Or.inl
      (List.mem_append.mpr (Or.inr ?_)))))
    split at hC
    · next a heqa =>
      split at hC
      · next b heqb =>
        have hca : c = b := by
          rcases List.mem_cons.mp hC with rfl | hx
          · rfl
          · exact absurd hx (List.not_mem_nil c)
        have hCy : stripPrefixCI (str "primary") (x ++ y) = some (a ++ y) :=
          stripPrefixCI_some_append y heqa
        obtain ⟨d2, t2, hx2, _⟩ := stripPrefixCI_head_not_ws
          (show stripPrefixCI ('r' :: str "ole") (a.dropWhile pyIsSpace) = some b
            from heqb) (by decide)
        have hCy2 : stripPrefixCI (str "role") ((a ++ y).dropWhile pyIsSpace)
            = some (b ++ y) := by
          rw [dropWhile_append_cons y hx2, ← List.cons_append, ← hx2]
          exact stripPrefixCI_some_append y heqb
        split
        · next a2 heqa2 =>
          rw [hCy] at heqa2
          injection heqa2 with ha2
          subst ha2
          split
          · next b2 heqb2 =>
            rw [hCy2] at heqb2
            injection heqb2 with hb2
            subst hb2
            rw [hca]
            exact List.mem_cons_self _ _
          · next heqb2 =>
            rw [hCy2] at heqb2
            exact Option.noConfusion heqb2
        · next heqa2 =>
          rw [hCy] at heqa2
          exact Option.noConfusion heqa2
      · next heqb =>
        exact absurd hC (List.not_mem_nil c)
    · next heqa =>
      exact absurd hC (List.not_mem_nil c)
  rcases List.mem_append.mp h3 with hA | hB
  · -- nationality
    refine List.mem_append.mpr (Or.inl (List.mem_append.mpr (Or.inl
      (List.mem_append.mpr (Or.inl (List.mem_append.mpr (Or.inl ?_)))))))
    split at hA
    · next a heqa =>
      have hca : c = a := by
        rcases List.mem_cons.mp hA with rfl | hx
        · rfl
        · exact absurd hx (List.not_mem_nil c)
      have hAy : stripPrefixCI (str "nationality") (x ++ y) = some (a ++ y) :=
        stripPrefixCI_some_append y heqa
      split
      · next a2 heqa2 =>
        rw [hAy] at heqa2
        injection heqa2 with ha2
        subst ha2
        rw [hca]
        exact List.mem_cons_self _ _
      · next heqa2 =>
        rw [hAy] at heqa2
        exact Option.noConfusion heqa2
    · next heqa =>
      exact absurd hA (List.not_mem_nil c)
  · -- age
    refine List.mem_append.mpr (Or.inl (List.mem_append.mpr (Or.inl
      (List.mem_append.mpr (Or.inl (List.mem_append.mpr (Or.inr ?_)))))))
    split at hB
    · next a heqa =>
      have hBy : stripPrefixCI (str "age") (x ++ y) = some (a ++ y) :=
        stripPrefixCI_some_append y heqa
      split
      · next a2 heqa2 =>
        rw [hBy] at heqa2
        injection heqa2 with ha2
        subst ha2
        exact mlAgeCands_append y hB hstar
      · next heqa2 =>
        rw [hBy] at heqa2
        exact Option.noConfusion heqa2
    · next heqa =>
      exact absurd hB (List.not_mem_nil c)

/-- `metaLineCore` holds only for dash-headed strings. -/
theorem metaLineCore_shape {z : Str} (h : metaLineCore z = true) :
    ∃ r0, z = '-' :: r0 ∧ mlAfterDash r0 = true := by
  rw [metaLineCore.eq_def] at h
  split at h
  · next r0 => exact ⟨r0, rfl, h⟩
  · next => simp at h

/-- `mlAfterDash` is append-stable. -/
theorem mlAfterDash_append {r0 : Str} (y : Str) (h : mlAfterDash r0 = true) :
    mlAfterDash (r0 ++ y) = true := by
  rw [mlAfterDash.eq_def] at h
  split at h
  · next r2 heq =>
    obtain ⟨c, hc, hPc⟩ := List.any_eq_true.mp h
    have hdw : (r0 ++ y).dropWhile pyIsSpace = '*' :: '*' :: (r2 ++ y) := by
      rw [dropWhile_append_cons y heq, List.cons_append]
    rw [mlAfterDash.eq_def, hdw]
    show (fieldCands (r2 ++ y)).any fcProbe = true
    rw [List.any_eq_true]
    exact ⟨c ++ y, fieldCands_append y hc (fcProbe_head hPc), fcProbe_append y hPc⟩
  · next => simp at h

/-- A meta bullet stays a meta bullet under left-whitespace and arbitrary
right padding. -/
theorem metaLine_pad_of {m : Str} (a b : Str)
    (ha : ∀ c ∈ a, pyIsSpace c = true) (h : metaLine m = true) :
    metaLine (a ++ m ++ b) = true := by
  unfold metaLine at h ⊢
  rw [List.append_assoc, dropWhile_append_all _ ha]
  obtain ⟨r0, hr0, h2⟩ := metaLineCore_shape h
  rw [dropWhile_append_cons b hr0]
  show mlAfterDash (r0 ++ b) = true
  exact mlAfterDash_append b h2

/-- The flagged-block start pattern ignores edge whitespace. -/
theorem flagStart_pad {a b : Str} (m : Str) (ha : ∀ c ∈ a, pyIsSpace c = true)
    (hb : ∀ c ∈ b, pyIsSpace c = true) :
    flagStart (a ++ m ++ b) = flagStart m := by
  unfold flagStart
  rw [pyStrip_pad m ha hb]

/-- The stats-header pattern ignores edge whitespace. -/
theorem statsHeader_pad {a b : Str} (m : Str) (ha : ∀ c ∈ a, pyIsSpace c = true)
    (hb : ∀ c ∈ b, pyIsSpace c = true) :
    statsHeader (a ++ m ++ b) = statsHeader m := by
  unfold statsHeader
  rw [pyStrip_pad m ha hb]

/-- The empty line is clean. -/
theorem lineClean_nil : lineClean [] := ⟨rfl, rfl, rfl⟩

/-- Cleanliness transfers to edge-trimmed variants. -/
theorem lineClean_edgeVar {m l : Str} (he : edgeVar m l) (hc : lineClean l) :
    lineClean m := by
  obtain ⟨a, b, rfl, ha, hb⟩ := he
  obtain ⟨h1, h2, h3⟩ := hc
  have ha2 := List.all_eq_true.mp ha
  have hb2 := List.all_eq_true.mp hb
  refine ⟨?_, ?_, ?_⟩
  · rw [← flagStart_pad m ha2 hb2]
    exact h1
  · cases hx : metaLine m
    · rfl
    · have h4 := metaLine_pad_of a b ha2 hx
      rw [h4] at h2
      exact h2
  · rw [← statsHeader_pad m ha2 hb2]
    exact h3

/-! ### Pass lemmas for the stripper -/

/-- Lines emitted by pass (A) come from the input and are never
flagged-block starts. -/
theorem mem_passAGo : ∀ (mode : Bool) (ls : List Str) {l : Str},
    l ∈ passAGo mode ls → l ∈ ls ∧ flagStart l = false := by
  intro mode ls
  induction ls generalizing mode with
  | nil =>
    intro l hl
    cases mode <;> exact absurd hl (List.not_mem_nil l)
  | cons x xs ih =>
    intro l hl
    cases mode with
    | false =>
      by_cases hf : flagStart x = true
      · rw [passAGo, if_pos hf] at hl
        obtain ⟨h1, h2⟩ := ih true hl
        exact ⟨List.mem_cons_of_mem _ h1, h2⟩
      · have hf2 : flagStart x = false := by
          cases hx : flagStart x
          · rfl
          · exact absurd hx hf
        rw [passAGo, if_neg hf] at hl
        rcases List.mem_cons.mp hl with rfl | h2
        · exact ⟨List.mem_cons_self _ _, hf2⟩
        · obtain ⟨h1, h3⟩ := ih false h2
          exact ⟨List.mem_cons_of_mem _ h1, h3⟩
    | true =>
      by_cases he : flagEnd x = true
      · rw [passAGo, if_pos he] at hl
        obtain ⟨h1, h2⟩ := ih false hl
        exact ⟨List.mem_cons_of_mem _ h1, h2⟩
      · rw [passAGo, if_neg he] at hl
        obtain ⟨h1, h2⟩ := ih true hl
        exact ⟨List.mem_cons_of_mem _ h1, h2⟩

/-- Lines emitted by pass (B) come from the input and match neither the
meta-bullet nor the stats-header pattern. -/
theorem mem_passBGo : ∀ (mode : Bool) (ls : List Str) {m : Str},
    m ∈ passBGo mode ls →
    m ∈ ls ∧ metaLine m = false ∧ statsHeader m = false := by
  intro mode ls
  induction ls generalizing mode with
  | nil =>
    intro m hm
    cases mode <;> exact absurd hm (List.not_mem_nil m)
  | cons x xs ih =>
    intro m hm
    rw [passBGo] at hm
    by_cases hcond1 : (mode && (blankLine x || statsItem x)) = true
    · rw [if_pos hcond1] at hm
      obtain ⟨h1, h2, h3⟩ := ih true hm
      exact ⟨List.mem_cons_of_mem _ h1, h2, h3⟩
    · rw [if_neg hcond1] at hm
      by_cases hcond2 : (headerTruthy x && (sawMetaB xs || sawStatsB xs)) = true
      · rw [if_pos hcond2] at hm
        obtain ⟨h1, h2, h3⟩ := ih false hm
        exact ⟨List.mem_cons_of_mem _ h1, h2, h3⟩
      · rw [if_neg hcond2] at hm
        by_cases hml : metaLine x = true
        · rw [if_pos hml] at hm
          obtain ⟨h1, h2, h3⟩ := ih false hm
          exact ⟨List.mem_cons_of_mem _ h1, h2, h3⟩
        · rw [if_neg hml] at hm
          by_cases hsh : statsHeader x = true
          · rw [if_pos hsh] at hm
            obtain ⟨h1, h2, h3⟩ := ih true hm
            exact ⟨List.mem_cons_of_mem _ h1, h2, h3⟩
          · rw [if_neg hsh] at hm
            rcases List.mem_cons.mp hm with rfl | h2
            · refine ⟨List.mem_cons_self _ _, ?_, ?_⟩
              · cases hx : metaLine m
                · rfl
                · exact absurd hx hml
              · cases hx : statsHeader m
                · rfl
                · exact absurd hx hsh
            · obtain ⟨h1, h2', h3⟩ := ih false h2
              exact ⟨List.mem_cons_of_mem _ h1, h2', h3⟩

/-- The `saw_meta` lookahead fails over meta-free lines. -/
theorem sawMetaB_false {ls : List Str} (h : ∀ l ∈ ls, metaLine l = false) :
    sawMetaB ls = false := by
  induction ls with
  | nil => rfl
  | cons x xs ih =>
    rw [sawMetaB]
    by_cases hb : blankLine x = true
    · rw [if_pos hb]
      exact ih fun l hl => h l (List.mem_cons_of_mem _ hl)
    · rw [if_neg hb]
      exact h x (List.mem_cons_self _ _)

/-- The `saw_stats` lookahead fails over header-free lines. -/
theorem sawStatsB_false {ls : List Str} (h : ∀ l ∈ ls, statsHeader l = false) :
    sawStatsB ls = false := by
  induction ls with
  | nil => rfl
  | cons x xs ih =>
    rw [sawStatsB]
    by_cases hb : blankLine x = true
    · rw [if_pos hb]
      exact ih fun l hl => h l (List.mem_cons_of_mem _ hl)
    · rw [if_neg hb]
      exact h x (List.mem_cons_self _ _)

/-- Pass (A) is the identity on flag-free line lists. -/
theorem passAGo_id {ls : List Str} (h : ∀ l ∈ ls, flagStart l = false) :
    passAGo false ls = ls := by
  induction ls with
  | nil => rfl
  | cons x xs ih =>
    have hx : ¬(flagStart x = true) := by
      rw [h x (List.mem_cons_self _ _)]
      exact Bool.false_ne_true
    rw [passAGo, if_neg hx, ih fun l hl => h l (List.mem_cons_of_mem _ hl)]

/-- Pass (B) is the identity on clean line lists. -/
theorem passBGo_id {ls : List Str}
    (h : ∀ l ∈ ls, metaLine l = false ∧ statsHeader l = false) :
    passBGo false ls = ls := by
  induction ls with
  | nil => rfl
  | cons x xs ih =>
    have hml : ¬(metaLine x = true) := by
      rw [(h x (List.mem_cons_self _ _)).1]
      exact Bool.false_ne_true
    have hsh : ¬(statsHeader x = true) := by
      rw [(h x (List.mem_cons_self _ _)).2]
      exact Bool.false_ne_true
    have hc1 : ¬((false && (blankLine x || statsItem x)) = true) := by
      rw [Bool.false_and]
      exact Bool.false_ne_true
    have hc2 : ¬((headerTruthy x && (sawMetaB xs || sawStatsB xs)) = true) := by
      rw [sawMetaB_false fun l hl => (h l (List.mem_cons_of_mem _ hl)).1,
        sawStatsB_false fun l hl => (h l (List.mem_cons_of_mem _ hl)).2]
      show ¬((headerTruthy x && false) = true)
      rw [Bool.and_false]
      exact Bool.false_ne_true
    rw [passBGo, if_neg hc1, if_neg hc2, if_neg hml, if_neg hsh,
      ih fun l hl => h l (List.mem_cons_of_mem _ hl)]

/-! ### The stripped narrative's line discipline -/

/-- `strip_meta_stats_text` on an empty input. -/
theorem strip_meta_stats_text_of_empty (z : Str) (kn : List Str)
    (h : z.isEmpty = true) : strip_meta_stats_text z kn = z := by
  unfold strip_meta_stats_text
  rw [if_pos h]

/-- `strip_meta_stats_text` on a nonempty input. -/
theorem strip_meta_stats_text_of_ne (z : Str) (kn : List Str)
    (h : ¬(z.isEmpty = true)) :
    strip_meta_stats_text z kn =
      pyStrip (collapseNL (joinNL (passB (passA (splitLines z))))) := by
  unfold strip_meta_stats_text
  rw [if_neg h]

/-- Lines surviving the two passes are clean and newline-free. -/
theorem strip_passes_line_facts {t l : Str}
    (h : l ∈ passB (passA (splitLines t))) :
    lineClean l ∧ '\n' ∉ l := by
  obtain ⟨h1, hml, hsh⟩ := mem_passBGo false _ h
  obtain ⟨h2, hfs⟩ := mem_passAGo false _ h1
  exact ⟨⟨hfs, hml, hsh⟩, splitLines_noNL h2⟩

/-- Every line of a stripped narrative is clean: the flagged-block start,
meta-bullet and stats-header patterns all fail on it. -/
theorem strip_meta_stats_lines_clean (t : Str) (kn : List Str) {m : Str}
    (hm : m ∈ splitLines (strip_meta_stats_text t kn)) : lineClean m := by
  by_cases ht : t.isEmpty = true
  · have ht2 : t = [] := by
      cases t with
      | nil => rfl
      | cons c cs => simp at ht
    subst ht2
    rw [strip_meta_stats_text_of_empty [] kn rfl] at hm
    exact absurd hm (List.not_mem_nil m)
  · rw [strip_meta_stats_text_of_ne t kn ht] at hm
    obtain ⟨l2, hl2, hev⟩ := mem_splitLines_pyStrip hm
    refine lineClean_edgeVar hev ?_
    have h3 := mem_splitLines_collapseGo
      (joinNL (passB (passA (splitLines t)))).length
      (joinNL (passB (passA (splitLines t)))) (le_refl _) l2 hl2
    rcases h3 with rfl | h4
    · exact lineClean_nil
    · have h5 := mem_splitLines_joinNL
        (fun l hl => (strip_passes_line_facts hl).2) h4
      exact (strip_passes_line_facts h5).1

/-- C10: narrative stripping is idempotent — the stripped narrative is a
fixed point of `strip_meta_stats_text`, whatever `known_names` lists are
passed on either run. -/
theorem C10_stripper_idempotent (t : Str) (kn kn2 : List Str) :
    strip_meta_stats_text (strip_meta_stats_text t kn) kn2 =
      strip_meta_stats_text t kn := by
  by_cases ht : t.isEmpty = true
  · have ht2 : t = [] := by
      cases t with
      | nil => rfl
      | cons c cs => simp at ht
    subst ht2
    rfl
  · have hout := strip_meta_stats_text_of_ne t kn ht
    by_cases ho : (strip_meta_stats_text t kn).isEmpty = true
    · exact strip_meta_stats_text_of_empty _ kn2 ho
    · have hclean : ∀ l ∈ splitLines (strip_meta_stats_text t kn), lineClean l :=
        fun l hl => strip_meta_stats_lines_clean t kn hl
      have hpassA : passA (splitLines (strip_meta_stats_text t kn)) =
          splitLines (strip_meta_stats_text t kn) :=
        passAGo_id fun l hl => (hclean l hl).1
      have hpassB : passB (passA (splitLines (strip_meta_stats_text t kn))) =
          splitLines (strip_meta_stats_text t kn) := by
        rw [show passB (passA (splitLines (strip_meta_stats_text t kn))) =
          passBGo false (passA (splitLines (strip_meta_stats_text t kn))) from rfl,
          hpassA]
        exact passBGo_id fun l hl => ⟨(hclean l hl).2.1, (hclean l hl).2.2⟩
      have hjoin : joinNL (splitLines (strip_meta_stats_text t kn)) =
          strip_meta_stats_text t kn := by
        apply joinNL_splitLines
        intro u hu
        rw [hout] at hu
        exact pyStrip_ne_snoc_nl _ u hu
      have hnt : noTripleB (strip_meta_stats_text t kn) = true := by
        rw [hout]
        have hX : noTripleB (collapseNL (joinNL (passB (passA (splitLines t)))))
            = true := noTripleB_collapseGo _ 0
        have hX2 : noTripleB
            (ltrimWs (collapseNL (joinNL (passB (passA (splitLines t)))))) = true := by
          have hdec := List.takeWhile_append_dropWhile pyIsSpace
            (collapseNL (joinNL (passB (passA (splitLines t)))))
          rw [← hdec] at hX
          exact noTripleB_suffix hX
        obtain ⟨w2, hw2, _⟩ := rtrimWs_decomp
          (ltrimWs (collapseNL (joinNL (passB (passA (splitLines t))))))
        rw [hw2] at hX2
        exact noTripleB_take hX2
      have hcoll : collapseNL (strip_meta_stats_text t kn) =
          strip_meta_stats_text t kn := collapseNL_of_noTriple hnt
      have hstr : pyStrip (strip_meta_stats_text t kn) =
          strip_meta_stats_text t kn := by
        rw [hout]
        exact pyStrip_idem _
      rw [strip_meta_stats_text_of_ne _ kn2 ho, hpassB, hjoin, hcoll, hstr]

/-! ### C6 — unterminated blocks and the stripped narrative -/

/-- `takeWhile` keeps a fully matching prefix. -/
theorem takeWhile_append_all {p : Char → Bool} {a : Str} (x : Str)
    (h : ∀ c ∈ a, p c = true) : (a ++ x).takeWhile p = a ++ x.takeWhile p := by
  induction a with
  | nil => rfl
  | cons c cs ih =>
    rw [List.cons_append, List.takeWhile_cons, if_pos (h c (List.mem_cons_self _ _)),
      ih fun d hd => h d (List.mem_cons_of_mem _ hd), List.cons_append]

/-- The literal full-line open tag matches `FLAG_BLOCK_START_RE`. -/
theorem flagStart_open_tag_line {nm : Str} (h : okTagName nm = true) :
    flagStart (str "[[PLAYER_PROFILE:" ++ nm ++ str "]]") = true := by
  have h2 := h
  rw [okTagName, Bool.and_eq_true, List.all_eq_true] at h2
  have hall : ∀ c ∈ nm, pyIsSpace c = false ∧ c ≠ ']' ∧ c ≠ '[' ∧ c ≠ '\n' := by
    intro c hc
    have h3 := h2.2 c hc
    simp only [Bool.and_eq_true, Bool.not_eq_true', decide_eq_true_eq] at h3
    exact ⟨h3.1.1.1, h3.1.1.2, h3.1.2, h3.2⟩
  have hstrip : pyStrip (str "[[PLAYER_PROFILE:" ++ nm ++ str "]]") =
      str "[[PLAYER_PROFILE:" ++ nm ++ str "]]" := by
    apply pyStrip_all_not_ws
    intro c hc
    rcases List.mem_append.mp hc with hc1 | hc1
    · rcases List.mem_append.mp hc1 with hc2 | hc2
      · exact (show ∀ d ∈ str "[[PLAYER_PROFILE:", pyIsSpace d = false by decide) c hc2
      · exact (hall c hc2).1
    · exact (show ∀ d ∈ str "]]", pyIsSpace d = false by decide) c hc1
  unfold flagStart
  rw [hstrip]
  show flagStartCore
    ('[' :: '[' :: (str "PLAYER_PROFILE" ++ (':' :: (nm ++ str "]]")))) = true
  have htk : tagKeywordCI (str "PLAYER_PROFILE" ++ (':' :: (nm ++ str "]]"))) =
      some (':' :: (nm ++ str "]]")) := by
    unfold tagKeywordCI
    rw [stripPrefixCI_append _ (by decide)]
  show (match tagKeywordCI (str "PLAYER_PROFILE" ++ (':' :: (nm ++ str "]]"))) with
    | none => false
    | some r1 => fsAfterKeyword r1) = true
  rw [htk]
  show fsAfterKeyword (':' :: (nm ++ str "]]")) = true
  show ((!((nm ++ str "]]").takeWhile (· ≠ ']')).isEmpty) &&
    (match (nm ++ str "]]").dropWhile (· ≠ ']') with
     | ']' :: ']' :: r3 => r3.isEmpty
     | _ => false)) = true
  have hne : ∀ c ∈ nm, (decide (c ≠ ']')) = true := by
    intro c hc
    simp [(hall c hc).2.1]
  rw [takeWhile_append_all _ hne, dropWhile_append_all _ hne]
  show ((!(nm ++ ([] : Str)).isEmpty) && true) = true
  rw [Bool.and_true, List.append_nil]
  exact h2.1

/-- With no close token anywhere, every suffix is close-free. -/
theorem noClose_drop {t : Str} (h : noCloseAnywhereB t = true) (k : Nat) :
    closeTagPB (t.drop k) = none := by
  by_cases hk : k ≤ t.length
  · unfold noCloseAnywhereB at h
    rw [List.all_eq_true] at h
    have hmem : k ∈ List.range (t.length + 1) := List.mem_range.mpr (by omega)
    exact Option.isNone_iff_eq_none.mp (h k hmem)
  · rw [List.drop_eq_nil_of_le (by omega)]
    rfl

/-- The lazy close scan fails on a close-free string. -/
theorem findClose_none {u : Str} (h : ∀ k, closeTagPB (u.drop k) = none) :
    findClose u = none := by
  induction u with
  | nil => rfl
  | cons c cs ih =>
    rw [findClose, show closeTagPB (c :: cs) = none from h 0,
      ih fun k => h (k + 1)]

/-- A case-insensitive literal match consumes a prefix. -/
theorem stripPrefixCI_drop {p : Str} : ∀ {z r : Str}, stripPrefixCI p z = some r →
    ∃ q, z = q ++ r := by
  induction p with
  | nil =>
    intro z r h
    have h2 : some z = some r := h
    injection h2 with h3
    exact ⟨[], by rw [h3, List.nil_append]⟩
  | cons a ps ih =>
    intro z r h
    obtain ⟨d, t, rfl, _, h2⟩ := stripPrefixCI_cons_head h
    obtain ⟨q, hq⟩ := ih h2
    exact ⟨d :: q, by rw [hq, List.cons_append]⟩

/-- The open-tag matcher returns a suffix of its input. -/
theorem openTagPB_drop {s grp rest : Str} (h : openTagPB s = some (grp, rest)) :
    ∃ pre, s = pre ++ rest := by
  rw [openTagPB.eq_def] at h
  split at h
  · next r =>
    split at h
    · next heq1 => exact Option.noConfusion h
    · next r1 heq1 =>
      split at h
      · next r2 heq2 =>
        split at h
        · next rest2 heq3 =>
          by_cases hrun : (r2.takeWhile (· ≠ ']')).isEmpty = true
          · rw [if_pos hrun] at h
            exact Option.noConfusion h
          · rw [if_neg hrun] at h
            injection h with h2
            injection h2 with h3 h4
            subst h4
            obtain ⟨q, hq⟩ := stripPrefixCI_drop heq1
            have e0 : r = r.takeWhile pyIsSpace ++ (q ++ r1) := by
              conv_lhs => rw [← List.takeWhile_append_dropWhile pyIsSpace r]
              rw [hq]
            have e1 : r1 = r1.takeWhile pyIsSpace ++ (':' :: r2) := by
              conv_lhs => rw [← List.takeWhile_append_dropWhile pyIsSpace r1]
              rw [heq2]
            have e2 : r2 = r2.takeWhile (· ≠ ']') ++ (']' :: ']' :: rest2) := by
              conv_lhs => rw [← List.takeWhile_append_dropWhile (fun c => decide (c ≠ ']')) r2]
              rw [heq3]
            refine ⟨'[' :: '[' :: (r.takeWhile pyIsSpace ++ q ++ r1.takeWhile pyIsSpace
              ++ [':'] ++ r2.takeWhile (· ≠ ']') ++ [']', ']']), ?_⟩
            conv_lhs => rw [e0, e1, e2]
            simp [List.append_assoc]
        · next heq3 => exact Option.noConfusion h
      · next heq2 => exact Option.noConfusion h
  · next heq0 => exact Option.noConfusion h

/-- With no close token anywhere, `PROFILE_BLOCK_RE.search` fails. -/
theorem searchPB_none_aux : ∀ (t : Str), (∀ k, closeTagPB (t.drop k) = none) →
    searchPB t = none := by
  intro t
  induction t with
  | nil =>
    intro _
    rfl
  | cons c cs ih =>
    intro h
    rw [searchPB]
    split
    · next grp afterOpen heq =>
      obtain ⟨pre, hpre⟩ := openTagPB_drop heq
      have hP : ∀ k, closeTagPB (afterOpen.drop k) = none := by
        intro k
        have h2 := h (pre.length + k)
        rw [hpre, List.drop_append] at h2
        exact h2
      rw [findClose_none hP]
      exact ih fun k => h (k + 1)
    · next heq =>
      exact ih fun k => h (k + 1)

/-- C6: the claim's universal form is refuted elsewhere by a text whose
unterminated open tag follows a complete block; the amended guarantee: when
no close token of `PROFILE_BLOCK_RE`'s close alternation occurs anywhere in
the text, the fallback parser extracts zero entities (no partial
extraction), and a full-line literal open tag can never survive stripping:
the line matches `FLAG_BLOCK_START_RE` while every line of the stripped
narrative fails it. -/
theorem C6_amended_no_close_no_entities (nm t : Str) (kn : List Str)
    (hnm : okTagName nm = true) (hnc : noCloseAnywhereB t = true) :
    fallback_parse_profile_block_new t = .ok [] ∧
      flagStart (str "[[PLAYER_PROFILE:" ++ nm ++ str "]]") = true ∧
      ∀ m ∈ splitLines (strip_meta_stats_text t kn), flagStart m = false := by
  refine ⟨?_, flagStart_open_tag_line hnm, ?_⟩
  · unfold fallback_parse_profile_block_new
    rw [searchPB_none_aux t (noClose_drop hnc)]
  · intro m hm
    exact (strip_meta_stats_lines_clean t kn hm).1

/-- C6 witness: the concrete tag name `X` and the concrete close-free text
`[[PLAYER_PROFILE:X]]\nabc`. -/
theorem C6_witness_concrete_text :
    okTagName (str "X") = true ∧
      noCloseAnywhereB (str "[[PLAYER_PROFILE:X]]\nabc") = true ∧
      (fallback_parse_profile_block_new (str "[[PLAYER_PROFILE:X]]\nabc") = .ok [] ∧
        flagStart (str "[[PLAYER_PROFILE:" ++ str "X" ++ str "]]") = true ∧
        ∀ m ∈ splitLines (strip_meta_stats_text (str "[[PLAYER_PROFILE:X]]\nabc") []),
          flagStart m = false) :=
  ⟨by decide, by decide,
    C6_amended_no_close_no_entities (str "X") (str "[[PLAYER_PROFILE:X]]\nabc") []
      (by decide) (by decide)⟩

end ScoutIQ
